import Mathlib

/-!
Verification of the Connect Four monorepo's game engine and page pipeline.

The repository ships two page-level consumers (a Next.js React Server
Components page and an Astro page) of a Connect Four engine exposing
`createInitialState`, `applyMove` (called `placePiece` by the pages) and
`chooseMove` (called `getComputerMove` by the pages).  The engine module
itself is not part of the available sources, so the engine definitions
below are modelled from the specification (board of 7 columns by 6 rows,
row 0 at the bottom, gravity placement, incremental win detection by
directional walks from the placed piece, and a tiered move-search engine
with plain minimax at Medium and alpha-beta search at High quality).
The page pipeline definitions (state loading with fallback, the
computer-move block, speculative next states, and the TS-to-WASM
serialization bridge) are translated directly from the page sources.
-/

namespace ConnectFour

/-- The two player colors of the TypeScript engine variant (serialized as
lowercase "red" / "yellow"). -/
inductive Color where
  | red
  | yellow
deriving DecidableEq

/-- The opposing color. -/
def Color.other : Color → Color
  | .red => .yellow
  | .yellow => .red

/-- A board cell: `none` is an empty cell, `some c` a piece of color `c`
(the TypeScript board stores `Color | null`). -/
abbrev Cell := Option Color

/-- A board: a list of columns, each a list of cells.  Well-formed boards
have exactly 7 columns of 6 cells, index 0 being the bottom row. -/
abbrev Board := List (List Cell)

/-- The quality tiers of the move-search engine, serialized as
"bad" / "medium" / "best". -/
inductive Quality where
  | bad
  | medium
  | best
deriving DecidableEq

/-- The engine's game state record. -/
structure GameState where
  board : Board
  currentPlayer : Color
  isGameOver : Bool
  winner : Option Color
deriving DecidableEq

/-- The engine's failure kinds (spec section 7). -/
inductive MoveError where
  | gameAlreadyOver
  | invalidColumn
  | columnFull
  | noLegalMoves
deriving DecidableEq

/-- Well-formedness of a board: exactly 7 columns of 6 cells each. -/
def BoardWF (b : Board) : Prop :=
  b.length = 7 ∧ ∀ col ∈ b, col.length = 6

instance (b : Board) : Decidable (BoardWF b) := by
  unfold BoardWF; infer_instance

/-- Modelled from the spec: `createInitialState` returns an empty 7 by 6
board, first player red (the human side in both pages), game not over,
no winner. -/
def createInitialState : GameState :=
  { board := List.replicate 7 (List.replicate 6 (none : Cell))
    currentPlayer := .red
    isGameOver := false
    winner := none }

/-- The cell of a board at integer coordinates, `none` when out of bounds
(for a well-formed board, in bounds means column in [0,7), row in [0,6)). -/
def cellAt (b : Board) (c r : Int) : Cell :=
  if 0 ≤ c ∧ 0 ≤ r then (b.getD c.toNat []).getD r.toNat none else none

/-- A column has room iff it still contains an empty cell. -/
def hasRoomB (b : Board) (c : Nat) : Bool :=
  (b.getD c []).any fun x => decide (x = none)

/-- The four axes of the win detector: horizontal, vertical, diagonal
ascending, diagonal descending. -/
def axes : List (Int × Int) := [(1, 0), (0, 1), (1, 1), (1, -1)]

/-- Modelled from the spec: walk outward from (but excluding) the cell at
(c, r) in direction (dc, dr), counting consecutive cells of color `pc`.
The fuel argument only needs to exceed the board diameter. -/
def countDir (b : Board) (pc : Color) (c r dc dr : Int) : Nat → Nat
  | 0 => 0
  | k + 1 =>
    if cellAt b (c + dc) (r + dr) = some pc then
      1 + countDir b pc (c + dc) (r + dr) dc dr k
    else 0

/-- Modelled from the spec: the incremental win detector anchored at the
just-placed cell (c, r) of color `pc` -- some axis reaches a total of at
least 4 consecutive cells of `pc`, counting the placed cell itself. -/
def checkWinAt (b : Board) (c r : Int) (pc : Color) : Bool :=
  axes.any fun d =>
    decide (4 ≤ 1 + countDir b pc c r d.1 d.2 6 + countDir b pc c r (-d.1) (-d.2) 6)

/-- Every column of the board is full. -/
def boardFull (b : Board) : Bool :=
  (List.range 7).all fun c => ! hasRoomB b c

/-- Four consecutive cells of color `pc` starting at (c, r) in direction
(dc, dr): the specification-level notion of a completed run. -/
def fourFrom (b : Board) (pc : Color) (c r dc dr : Int) : Bool :=
  (List.range 4).all fun i => decide (cellAt b (c + i * dc) (r + i * dr) = some pc)

/-- Some axis of the board carries four contiguous cells of color `pc`:
the whole-board reading of "four contiguous same-color cells on some
axis". -/
def hasFourRun (b : Board) (pc : Color) : Bool :=
  (List.range 7).any fun c => (List.range 6).any fun r =>
    axes.any fun d => fourFrom b pc c r d.1 d.2

/-- Modelled from the spec: `applyMove` (the `placePiece` of the pages).
Fails with `gameAlreadyOver` on a terminal state, `invalidColumn` outside
[0, 6], `columnFull` when the column has no empty cell; otherwise drops a
piece of the current player's color into the lowest empty cell, runs the
win detector anchored there, declares a draw on a full board, and
otherwise hands the turn to the other player. -/
def applyMove (s : GameState) (c : Int) : Except MoveError GameState :=
  if s.isGameOver then .error .gameAlreadyOver
  else if c < 0 ∨ 6 < c then .error .invalidColumn
  else
    let col := s.board.getD c.toNat []
    match col.findIdx? (fun x => decide (x = none)) with
    | none => .error .columnFull
    | some r =>
      let newBoard := s.board.set c.toNat (col.set r (some s.currentPlayer))
      if checkWinAt newBoard c r s.currentPlayer then
        .ok { s with board := newBoard, isGameOver := true,
                     winner := some s.currentPlayer }
      else if boardFull newBoard then
        .ok { s with board := newBoard, isGameOver := true, winner := none }
      else
        .ok { board := newBoard, currentPlayer := s.currentPlayer.other,
              isGameOver := false, winner := none }

/-- Fold a move sequence from the initial state, failing as soon as one
move is illegal. -/
def playMoves (ms : List Int) : Except MoveError GameState :=
  ms.foldlM applyMove createInitialState

/-- A state reachable from the initial state by a legal move sequence. -/
def Reachable (s : GameState) : Prop :=
  ∃ ms : List Int, playMoves ms = .ok s

/-- Modelled from the spec: the High-quality search order, central columns
first. -/
def centerOrder : List Nat := [3, 2, 4, 1, 5, 0, 6]

/-- The legal columns of a board, in the engine's search order. -/
def legalMoves (b : Board) : List Nat := centerOrder.filter (hasRoomB b)

/-- The successor state explored by the search engine (never fails on the
columns of `legalMoves`; on an illegal column it degenerates to the input
state so the function stays total). -/
def step (s : GameState) (m : Nat) : GameState :=
  match applyMove s (m : Int) with
  | .ok t => t
  | .error _ => s

/-- The magnitude of a terminal win score. -/
def winScore : Int := 100000

/-- The sentinel bounding every score strictly; the root search window is
(-bestTop, bestTop). -/
def bestTop : Int := 1000000

/-- Modelled from the spec: terminal scores, large positive for an engine
win, large negative for an opponent win, zero for a draw, with the
remaining depth added so that shallower wins score higher. -/
def terminalScore (e : Color) (s : GameState) (d : Nat) : Int :=
  match s.winner with
  | some w => if w = e then winScore + d else -(winScore + (d : Int))
  | none => 0

/-- Modelled from the spec: heuristic score of one 4-cell window, rewarding
the engine's open runs of 2 and 3 and penalizing the opponent's
symmetrically. -/
def windowScore (e : Color) (w : List Cell) : Int :=
  let mine := w.countP fun x => decide (x = some e)
  let theirs := w.countP fun x => decide (x = some e.other)
  if theirs = 0 ∧ mine = 3 then 50
  else if theirs = 0 ∧ mine = 2 then 10
  else if mine = 0 ∧ theirs = 3 then -50
  else if mine = 0 ∧ theirs = 2 then -10
  else 0

/-- The 4 cells starting at (c, r) along direction (dc, dr). -/
def windowCells (b : Board) (c r dc dr : Int) : List Cell :=
  (List.range 4).map fun i => cellAt b (c + i * dc) (r + i * dr)

/-- The window-based threat count of the whole board: every 4-cell window
on every axis scored by `windowScore`. -/
def boardThreatScore (e : Color) (b : Board) : Int :=
  ((List.range 7).map fun c =>
    ((List.range 6).map fun r =>
      (axes.map fun d => windowScore e (windowCells b c r d.1 d.2)).sum).sum).sum

/-- Modelled from the spec: static evaluation at the depth cutoff --
window-based threat counting plus a center-column occupancy bonus. -/
def heuristic (e : Color) (b : Board) : Int :=
  3 * ((((b.getD 3 []).countP fun x => decide (x = some e)) : Int) -
       (((b.getD 3 []).countP fun x => decide (x = some e.other)) : Int)) +
  boardThreatScore e b

/-- Modelled from the spec: plain fixed-depth minimax value of a state from
the perspective of the engine color `e` (maximizing when `e` is to move). -/
def mmVal (e : Color) : Nat → GameState → Int
  | 0, s => if s.isGameOver then terminalScore e s 0 else heuristic e s.board
  | d + 1, s =>
    if s.isGameOver then terminalScore e s (d + 1)
    else
      match legalMoves s.board with
      | [] => heuristic e s.board
      | m :: ms =>
        if s.currentPlayer = e then
          (ms.map fun m2 => mmVal e d (step s m2)).foldl max (mmVal e d (step s m))
        else
          (ms.map fun m2 => mmVal e d (step s m2)).foldl min (mmVal e d (step s m))

/-- The maximizing alpha-beta loop over a move list: `acc` plays the role of
both alpha and the best value so far; the loop stops once `acc` reaches
beta.  `f m a b` evaluates the successor for move `m` with window (a, b). -/
def abMaxL (f : Nat → Int → Int → Int) (beta : Int) : List Nat → Int → Int
  | [], acc => acc
  | m :: ms, acc =>
    if beta ≤ acc then acc
    else abMaxL f beta ms (max acc (f m acc beta))

/-- The minimizing alpha-beta loop, mirror image of `abMaxL`. -/
def abMinL (f : Nat → Int → Int → Int) (alpha : Int) : List Nat → Int → Int
  | [], acc => acc
  | m :: ms, acc =>
    if acc ≤ alpha then acc
    else abMinL f alpha ms (min acc (f m alpha acc))

/-- Modelled from the spec: alpha-beta-pruned minimax value with window
(alpha, beta), same depth, evaluation and center-outward order as `mmVal`. -/
def abVal (e : Color) : Nat → GameState → Int → Int → Int
  | 0, s, _, _ => if s.isGameOver then terminalScore e s 0 else heuristic e s.board
  | d + 1, s, alpha, beta =>
    if s.isGameOver then terminalScore e s (d + 1)
    else
      match legalMoves s.board with
      | [] => heuristic e s.board
      | m :: ms =>
        if s.currentPlayer = e then
          abMaxL (fun m2 a b => abVal e d (step s m2) a b) beta (m :: ms) alpha
        else
          abMinL (fun m2 a b => abVal e d (step s m2) a b) alpha (m :: ms) beta

/-- The root loop of the pruned search: evaluates each candidate with the
window (best value so far, bestTop) and keeps the first strict
improvement. -/
def abRootLoop (f : Nat → Int → Int → Int) : List Nat → Nat → Int → Nat
  | [], best, _ => best
  | m :: ms, best, bv =>
    let v := f m bv bestTop
    if bv < v then abRootLoop f ms m v else abRootLoop f ms best bv

/-- The column chosen by the alpha-beta-pruned search at depth `d`, `none`
when no column is legal. -/
def abRoot (e : Color) (d : Nat) (s : GameState) : Option Nat :=
  match legalMoves s.board with
  | [] => none
  | m :: ms =>
    some (abRootLoop (fun m2 a b => abVal e d (step s m2) a b) ms m
      (abVal e d (step s m) (-bestTop) bestTop))

/-- The root loop of the unpruned reference search: full evaluation of every
candidate, keeping the first strict improvement. -/
def mmRootLoop (g : Nat → Int) : List Nat → Nat → Int → Nat
  | [], best, _ => best
  | m :: ms, best, bv =>
    let v := g m
    if bv < v then mmRootLoop g ms m v else mmRootLoop g ms best bv

/-- The column chosen by unpruned fixed-depth minimax with the same depth,
evaluation and center-outward order as `abRoot`. -/
def mmRoot (e : Color) (d : Nat) (s : GameState) : Option Nat :=
  match legalMoves s.board with
  | [] => none
  | m :: ms =>
    some (mmRootLoop (fun m2 => mmVal e d (step s m2)) ms m (mmVal e d (step s m)))

/-- The search depth of the High ("best") tier. -/
def hiDepth : Nat := 5

/-- The search depth of the Medium tier. -/
def midDepth : Nat := 3

/-- An immediately winning column for the side to move, if any. -/
def findWin (s : GameState) : Option Nat :=
  (legalMoves s.board).find? fun m => decide ((step s m).winner = some s.currentPlayer)

/-- A column where the opponent would win immediately, if any. -/
def findBlock (s : GameState) : Option Nat :=
  (legalMoves s.board).find? fun m =>
    decide ((step { s with currentPlayer := s.currentPlayer.other } m).winner
      = some s.currentPlayer.other)

/-- Modelled from the spec: `chooseMove` (the `getComputerMove` of the
pages).  Fails with `gameAlreadyOver` on a terminal state and with
`noLegalMoves` on a full board; otherwise Low quality takes an immediate
win, else blocks an immediate loss, else takes the most central legal
column; Medium runs plain minimax and High alpha-beta search. -/
def chooseMove (s : GameState) (q : Quality) : Except MoveError Nat :=
  if s.isGameOver then .error .gameAlreadyOver
  else
    match legalMoves s.board with
    | [] => .error .noLegalMoves
    | m :: ms =>
      match q with
      | .bad =>
        match findWin s with
        | some w => .ok w
        | none =>
          match findBlock s with
          | some w => .ok w
          | none => .ok m
      | .medium =>
        .ok (mmRootLoop (fun m2 => mmVal s.currentPlayer midDepth (step s m2)) ms m
          (mmVal s.currentPlayer midDepth (step s m)))
      | .best =>
        .ok (abRootLoop (fun m2 a b => abVal s.currentPlayer hiDepth (step s m2) a b) ms m
          (abVal s.currentPlayer hiDepth (step s m) (-bestTop) bestTop))

/-- The extended state of the pages: the engine state plus animation
bookkeeping and the selected search quality (page.tsx, lines 13-19). -/
structure ExtGameState where
  board : Board
  currentPlayer : Color
  isGameOver : Bool
  winner : Option Color
  newestPieceColumn : Option Int
  newestComputerPieceColumn : Option Int
  minimaxQuality : Quality
deriving DecidableEq

/-- The engine-visible part of an extended state (TypeScript passes the
extended record where a `GameState` is expected; the engine reads only
these fields). -/
def ExtGameState.toGame (g : ExtGameState) : GameState :=
  { board := g.board, currentPlayer := g.currentPlayer,
    isGameOver := g.isGameOver, winner := g.winner }

/-- The freshly created extended initial state of the pages: the engine's
initial state with no newest pieces and quality "best" (page.tsx,
lines 53-58). -/
def initialExtState : ExtGameState :=
  { board := createInitialState.board
    currentPlayer := createInitialState.currentPlayer
    isGameOver := createInitialState.isGameOver
    winner := createInitialState.winner
    newestPieceColumn := none
    newestComputerPieceColumn := none
    minimaxQuality := .best }

/-- The colors as named by the WASM engine variant ("Red" / "Yellow"). -/
inductive WColor where
  | Red
  | Yellow
deriving DecidableEq

/-- The capitalization `cell.charAt(0).toUpperCase() + cell.slice(1)`
applied to the two color names. -/
def Color.capitalize : Color → WColor
  | .red => .Red
  | .yellow => .Yellow

/-- The lowercasing inverse of `Color.capitalize`. -/
def WColor.lower : WColor → Color
  | .Red => .red
  | .Yellow => .yellow

/-- The extended state in the WASM naming convention: snake_case engine
fields, cells either "Empty" or a Filled record (here `Option WColor`),
page-level fields unchanged (part_000, lines 8-24). -/
structure WasmExtGameState where
  board : List (List (Option WColor))
  current_player : WColor
  is_game_over : Bool
  winner : Option WColor
  newestPieceColumn : Option Int
  newestComputerPieceColumn : Option Int
  minimaxQuality : Quality
deriving DecidableEq

/-- The serialization bridge of page.tsx, lines 21-46: maps each null cell
to "Empty" and each color cell to a Filled record with the capitalized
color, capitalizes `currentPlayer` and `winner` (keeping null), and copies
the page-level fields. -/
def convertTsToWasmGameState (tsState : ExtGameState) : WasmExtGameState :=
  { board := tsState.board.map fun column => column.map fun cell =>
      cell.map Color.capitalize
    current_player := tsState.currentPlayer.capitalize
    is_game_over := tsState.isGameOver
    winner := tsState.winner.map Color.capitalize
    newestPieceColumn := tsState.newestPieceColumn
    newestComputerPieceColumn := tsState.newestComputerPieceColumn
    minimaxQuality := tsState.minimaxQuality }

/-- The inverse translation of the bridge, recovering every field. -/
def convertWasmToTsGameState (w : WasmExtGameState) : ExtGameState :=
  { board := w.board.map fun column => column.map fun cell => cell.map WColor.lower
    currentPlayer := w.current_player.lower
    isGameOver := w.is_game_over
    winner := w.winner.map WColor.lower
    newestPieceColumn := w.newestPieceColumn
    newestComputerPieceColumn := w.newestComputerPieceColumn
    minimaxQuality := w.minimaxQuality }

/-- JSON values, the common currency of `JSON.stringify` / `JSON.parse` and
of the zod schema validators. -/
inductive Json where
  | null
  | bool (v : Bool)
  | num (v : Int)
  | str (v : String)
  | arr (elems : List Json)
  | obj (fields : List (String × Json))

/-- Property access on a JSON object, as performed by the zod object
schemas. -/
def Json.getField : Json → String → Option Json
  | .obj fs, k => fs.lookup k
  | _, _ => none

/-- The zod color schema of the TypeScript variant: exactly "red" or
"yellow". -/
def parseColorTs : Json → Option Color
  | .str "red" => some Color.red
  | .str "yellow" => some Color.yellow
  | _ => none

/-- The TypeScript cell: null or a color name. -/
def parseCellTs : Json → Option Cell
  | .null => some none
  | .str "red" => some (some Color.red)
  | .str "yellow" => some (some Color.yellow)
  | _ => none

/-- The zod `z.array(inner)` schema: a JSON array whose every element
passes the inner schema (no length constraint, as in the sources). -/
def parseListWith (p : Json → Option α) : Json → Option (List α)
  | .arr xs => xs.mapM p
  | _ => none

/-- The zod `z.boolean()` schema. -/
def parseBool : Json → Option Bool
  | .bool v => some v
  | _ => none

/-- The zod `.nullable()` wrapper: null passes as none, otherwise the inner
schema decides. -/
def parseNullable (p : Json → Option α) : Json → Option (Option α)
  | .null => some none
  | j => (p j).map some

/-- The zod `z.number()` schema (the values in play are column indices). -/
def parseNum : Json → Option Int
  | .num v => some v
  | _ => none

/-- The quality enum schema: "bad" / "medium" / "best". -/
def parseQuality : Json → Option Quality
  | .str "bad" => some Quality.bad
  | .str "medium" => some Quality.medium
  | .str "best" => some Quality.best
  | _ => none

/-- The `ExtendedGameStateSchema.parse` of page.tsx (the base
`GameStateSchema` field types are modelled from the spec's wire schema,
since the engine module carrying it is not among the sources). -/
def parseExtTs (j : Json) : Option ExtGameState := do
  let board ← j.getField "board" >>= parseListWith (parseListWith parseCellTs)
  let cp ← j.getField "currentPlayer" >>= parseColorTs
  let go ← j.getField "isGameOver" >>= parseBool
  let w ← j.getField "winner" >>= parseNullable parseColorTs
  let npc ← j.getField "newestPieceColumn" >>= parseNullable parseNum
  let ncpc ← j.getField "newestComputerPieceColumn" >>= parseNullable parseNum
  let q ← j.getField "minimaxQuality" >>= parseQuality
  pure { board := board, currentPlayer := cp, isGameOver := go, winner := w,
         newestPieceColumn := npc, newestComputerPieceColumn := ncpc,
         minimaxQuality := q }

/-- Serialization of a TypeScript-variant color. -/
def encodeColorTs : Color → Json
  | .red => .str "red"
  | .yellow => .str "yellow"

/-- Serialization of a TypeScript-variant cell. -/
def encodeCellTs : Cell → Json
  | none => .null
  | some c => encodeColorTs c

/-- Serialization of a nullable value (JavaScript null). -/
def encodeOpt (enc : α → Json) : Option α → Json
  | none => .null
  | some x => enc x

/-- Serialization of a quality tier. -/
def encodeQuality : Quality → Json
  | .bad => .str "bad"
  | .medium => .str "medium"
  | .best => .str "best"

/-- `JSON.stringify` of an extended TypeScript-variant state, at the JSON
value level. -/
def encodeExtTs (s : ExtGameState) : Json :=
  .obj [("board", .arr (s.board.map fun col => .arr (col.map encodeCellTs))),
        ("currentPlayer", encodeColorTs s.currentPlayer),
        ("isGameOver", .bool s.isGameOver),
        ("winner", encodeOpt encodeColorTs s.winner),
        ("newestPieceColumn", encodeOpt Json.num s.newestPieceColumn),
        ("newestComputerPieceColumn", encodeOpt Json.num s.newestComputerPieceColumn),
        ("minimaxQuality", encodeQuality s.minimaxQuality)]

/-- The zod enum of WASM color names (part_000, line 10). -/
def parseWColor : Json → Option WColor
  | .str "Red" => some WColor.Red
  | .str "Yellow" => some WColor.Yellow
  | _ => none

/-- The `CellSchema` of part_000, lines 8-11: the literal "Empty" or an
object with a valid "Filled" color. -/
def parseCellWasm : Json → Option (Option WColor)
  | .str "Empty" => some none
  | j => (j.getField "Filled" >>= parseWColor).map some

/-- The `ExtendedGameStateSchema.parse` of part_000, lines 13-24; `winner`
is `.nullable().optional()`, so an absent key also passes. -/
def parseExtWasm (j : Json) : Option WasmExtGameState := do
  let board ← j.getField "board" >>= parseListWith (parseListWith parseCellWasm)
  let cp ← j.getField "current_player" >>= parseWColor
  let go ← j.getField "is_game_over" >>= parseBool
  let w ← match j.getField "winner" with
    | none => some none
    | some v => parseNullable parseWColor v
  let npc ← j.getField "newestPieceColumn" >>= parseNullable parseNum
  let ncpc ← j.getField "newestComputerPieceColumn" >>= parseNullable parseNum
  let q ← j.getField "minimaxQuality" >>= parseQuality
  pure { board := board, current_player := cp, is_game_over := go, winner := w,
         newestPieceColumn := npc, newestComputerPieceColumn := ncpc,
         minimaxQuality := q }

/-- Serialization of a WASM-variant color. -/
def encodeWColor : WColor → Json
  | .Red => .str "Red"
  | .Yellow => .str "Yellow"

/-- Serialization of a WASM-variant cell. -/
def encodeCellWasm : Option WColor → Json
  | none => .str "Empty"
  | some c => .obj [("Filled", encodeWColor c)]

/-- `JSON.stringify` of an extended WASM-variant state, at the JSON value
level. -/
def encodeExtWasm (s : WasmExtGameState) : Json :=
  .obj [("board", .arr (s.board.map fun col => .arr (col.map encodeCellWasm))),
        ("current_player", encodeWColor s.current_player),
        ("is_game_over", .bool s.is_game_over),
        ("winner", encodeOpt encodeWColor s.winner),
        ("newestPieceColumn", encodeOpt Json.num s.newestPieceColumn),
        ("newestComputerPieceColumn", encodeOpt Json.num s.newestComputerPieceColumn),
        ("minimaxQuality", encodeQuality s.minimaxQuality)]

/-- The state-loading boundary of page.tsx, lines 60-74: no "state"
parameter, a failed decompression / parse (both collapsed into a missing
JSON value) or a failed schema validation all fall back to the freshly
created initial state. -/
def loadGameState (stateParam : Option Json) : ExtGameState :=
  match stateParam with
  | none => initialExtState
  | some j => (parseExtTs j).getD initialExtState

/-- The computer-move block of page.tsx, lines 76-95: when the loaded state
is non-terminal with yellow to move, the page advances it by the engine's
chosen column, copying `newestPieceColumn` and `minimaxQuality` and
recording the chosen column in `newestComputerPieceColumn`; otherwise the
state is left as is.  `none` models an engine exception escaping the
page. -/
def pageAfterComputer (g : ExtGameState) : Option ExtGameState :=
  if g.isGameOver = false ∧ g.currentPlayer = .yellow then
    match chooseMove g.toGame g.minimaxQuality with
    | .error _ => none
    | .ok m =>
      match applyMove g.toGame (m : Int) with
      | .error _ => none
      | .ok t =>
        some { board := t.board, currentPlayer := t.currentPlayer,
               isGameOver := t.isGameOver, winner := t.winner,
               newestPieceColumn := g.newestPieceColumn,
               minimaxQuality := g.minimaxQuality,
               newestComputerPieceColumn := some (m : Int) }
  else some g

/-- The speculative next-state function of page.tsx, lines 106-119: on a
terminal state it returns the current state itself; otherwise it applies
the player's move, records the column and clears the computer's newest
piece. -/
def getNextState (g : ExtGameState) (column : Int) : Option ExtGameState :=
  if g.isGameOver then some g
  else
    match applyMove g.toGame column with
    | .error _ => none
    | .ok t =>
      some { board := t.board, currentPlayer := t.currentPlayer,
             isGameOver := t.isGameOver, winner := t.winner,
             minimaxQuality := g.minimaxQuality,
             newestPieceColumn := some column,
             newestComputerPieceColumn := none }

/-- The states the page hands to the engine operations, in order: the
loaded state (to `getComputerMove` and `placePiece`) when the computer
block fires, then, per rendered column, the post-computer state inside
`getNextState` unless that state is terminal. -/
def pageEngineCallStates (g : ExtGameState) : List GameState :=
  (if g.isGameOver = false ∧ g.currentPlayer = .yellow then [g.toGame, g.toGame]
   else [])
  ++
  (match pageAfterComputer g with
   | none => []
   | some g1 =>
     if g1.isGameOver then [] else (List.range 7).map fun _ => g1.toGame)

/-! ### Basic facts about the engine operations -/

theorem applyMove_of_terminal (s : GameState) (c : Int) (h : s.isGameOver = true) :
    applyMove s c = .error .gameAlreadyOver := by
  simp [applyMove, h]

theorem applyMove_ne_gameAlreadyOver (s : GameState) (h : s.isGameOver = false)
    (c : Int) : applyMove s c ≠ .error .gameAlreadyOver := by
  unfold applyMove
  rw [h]
  simp only [Bool.false_eq_true, if_false]
  split
  · simp
  · split
    · simp
    · split
      · simp
      · split <;> simp

theorem chooseMove_ne_gameAlreadyOver (s : GameState) (h : s.isGameOver = false)
    (q : Quality) : chooseMove s q ≠ .error .gameAlreadyOver := by
  unfold chooseMove
  rw [h]
  simp only [Bool.false_eq_true, if_false]
  split
  · simp
  · cases q <;> simp only [ne_eq]
    · split <;> [simp; skip]
      split <;> simp
    · simp
    · simp

/-- Claim C2: for every `GameState` and integer column index, `applyMove`
fails with `gameAlreadyOver` on a terminal state; with `invalidColumn` on a
non-terminal state and an index outside [0, 6]; with `columnFull` on a
non-terminal state, an in-range index, and a column with no empty cell; and
otherwise succeeds with a new state (the input state is a pure value and is
never mutated). -/
theorem applyMove_contract (s : GameState) (c : Int) :
    (s.isGameOver = true → applyMove s c = .error .gameAlreadyOver) ∧
    (s.isGameOver = false → (c < 0 ∨ 6 < c) → applyMove s c = .error .invalidColumn) ∧
    (s.isGameOver = false → 0 ≤ c → c ≤ 6 → hasRoomB s.board c.toNat = false →
      applyMove s c = .error .columnFull) ∧
    (s.isGameOver = false → 0 ≤ c → c ≤ 6 → hasRoomB s.board c.toNat = true →
      ∃ t, applyMove s c = .ok t) := by
  refine ⟨fun h => applyMove_of_terminal s c h, fun h hc => ?_, fun h h0 h6 hfull => ?_,
    fun h h0 h6 hroom => ?_⟩
  · simp [applyMove, h, hc]
  · have hnone : (s.board[c.toNat]?.getD []).findIdx? (fun x => decide (x = none)) = none := by
      rw [← List.getD_eq_getElem?_getD, List.findIdx?_eq_none_iff]
      intro x hx
      have := List.any_eq_false.mp hfull x hx
      simpa using this
    have hc' : ¬ (c < 0 ∨ 6 < c) := by omega
    simp [applyMove, h, hc', hnone]
  · have hnone : (s.board[c.toNat]?.getD []).findIdx? (fun x => decide (x = none)) ≠ none := by
      rw [← List.getD_eq_getElem?_getD]
      intro hn
      rw [List.findIdx?_eq_none_iff] at hn
      obtain ⟨x, hx, px⟩ := List.any_eq_true.mp hroom
      have := hn x hx
      simp_all
    obtain ⟨r, hr⟩ := Option.ne_none_iff_exists'.mp hnone
    rw [← List.getD_eq_getElem?_getD] at hr
    have hc' : ¬ (c < 0 ∨ 6 < c) := by omega
    unfold applyMove
    rw [h]
    simp only [Bool.false_eq_true, if_false]
    rw [if_neg hc']
    split
    · rename_i heq
      rw [heq] at hr
      simp at hr
    · split
      · exact ⟨_, rfl⟩
      · split <;> exact ⟨_, rfl⟩

theorem applyMove_contract_witness :
    applyMove { createInitialState with isGameOver := true } 0 = .error .gameAlreadyOver ∧
    applyMove createInitialState 9 = .error .invalidColumn ∧
    applyMove ((playMoves [0, 0, 0, 0, 0, 0]).toOption.getD createInitialState) 0 =
      .error .columnFull ∧
    ∃ t, applyMove createInitialState 3 = .ok t := by
  refine ⟨(applyMove_contract _ 0).1 rfl, (applyMove_contract _ 9).2.1 rfl (by decide),
    (applyMove_contract _ 0).2.2.1 (by decide) (by decide) (by decide) (by decide),
    (applyMove_contract createInitialState 3).2.2.2 rfl (by decide) (by decide) (by decide)⟩

/-! ### The serialization bridge (claim C5) -/

theorem cell_capitalize_lower (x : Cell) :
    (x.map Color.capitalize).map WColor.lower = x := by
  cases x with
  | none => rfl
  | some c => cases c <;> rfl

theorem col_capitalize_lower (col : List Cell) :
    (col.map fun cell => cell.map Color.capitalize).map
      (fun cell => cell.map WColor.lower) = col := by
  induction col with
  | nil => rfl
  | cons x xs ih => simp only [List.map_cons, List.cons.injEq]
                    exact ⟨cell_capitalize_lower x, ih⟩

theorem board_capitalize_lower (b : Board) :
    ((b.map fun column => column.map fun cell => cell.map Color.capitalize).map
      fun column => column.map fun cell => cell.map WColor.lower) = b := by
  induction b with
  | nil => rfl
  | cons col rest ih => simp only [List.map_cons, List.cons.injEq]
                        exact ⟨col_capitalize_lower col, ih⟩

/-- Claim C5: the naming-convention bridge `convertTsToWasmGameState` is
lossless and injective -- composing it with the inverse translation
recovers every field of the input, and two distinct extended states are
mapped to distinct WASM-variant states. -/
theorem convertTsToWasm_lossless (s t : ExtGameState) :
    convertWasmToTsGameState (convertTsToWasmGameState s) = s ∧
    (convertTsToWasmGameState s = convertTsToWasmGameState t → s = t) := by
  have inv : ∀ u : ExtGameState,
      convertWasmToTsGameState (convertTsToWasmGameState u) = u := by
    intro u
    cases u with
    | mk board cp go w npc ncpc q =>
      have hcp : cp.capitalize.lower = cp := by cases cp <;> rfl
      have hw : (w.map Color.capitalize).map WColor.lower = w := by
        cases w with
        | none => rfl
        | some c => cases c <;> rfl
      simp [convertTsToWasmGameState, convertWasmToTsGameState,
        board_capitalize_lower board, hcp, hw]
  exact ⟨inv s, fun h => by
    have h2 := congrArg convertWasmToTsGameState h
    rwa [inv s, inv t] at h2⟩

theorem convertTsToWasm_lossless_witness :
    convertWasmToTsGameState (convertTsToWasmGameState initialExtState) =
      initialExtState ∧ initialExtState = initialExtState :=
  ⟨(convertTsToWasm_lossless initialExtState initialExtState).1,
    (convertTsToWasm_lossless initialExtState initialExtState).2 rfl⟩

/-! ### The page boundary and control flow (claims C6, C8, C9, C10) -/

/-- Claim C6: a missing "state" parameter, a failed
decompression / parse, or a failed schema validation each make the page
fall back to the freshly created initial state, and the state the page
proceeds with is always either that initial state or one that passed
schema validation. -/
theorem loadGameState_fallback (p : Option Json) :
    loadGameState none = initialExtState ∧
    (∀ j, p = some j → parseExtTs j = none → loadGameState p = initialExtState) ∧
    (loadGameState p = initialExtState ∨
      ∃ j, p = some j ∧ parseExtTs j = some (loadGameState p)) := by
  refine ⟨rfl, ?_, ?_⟩
  · rintro j rfl hj
    simp [loadGameState, hj]
  · cases p with
    | none => exact Or.inl rfl
    | some j =>
      cases hj : parseExtTs j with
      | none => exact Or.inl (by simp [loadGameState, hj])
      | some g => exact Or.inr ⟨j, rfl, by simp [loadGameState, hj]⟩

theorem loadGameState_fallback_witness :
    loadGameState none = initialExtState ∧
    loadGameState (some Json.null) = initialExtState := by
  refine ⟨(loadGameState_fallback none).1, ?_⟩
  exact (loadGameState_fallback (some Json.null)).2.1 Json.null rfl rfl

/-- Claim C9: on a terminal state, the speculative next-state function
returns the current game state itself, unchanged, for every column. -/
theorem getNextState_terminal (g : ExtGameState) (column : Int)
    (h : g.isGameOver = true) : getNextState g column = some g := by
  simp [getNextState, h]

theorem getNextState_terminal_witness :
    ({ initialExtState with isGameOver := true } : ExtGameState).isGameOver = true ∧
    getNextState { initialExtState with isGameOver := true } 0 =
      some { initialExtState with isGameOver := true } :=
  ⟨rfl, getNextState_terminal { initialExtState with isGameOver := true } 0 rfl⟩

/-- Claim C8: every state the page passes to `placePiece` or
`getComputerMove` is non-terminal, so the engine's `gameAlreadyOver`
failure branch is unreachable from the page's control flow. -/
theorem pageEngineCalls_nonterminal (g : ExtGameState) (s : GameState)
    (h : s ∈ pageEngineCallStates g) :
    s.isGameOver = false ∧
    (∀ c : Int, applyMove s c ≠ .error .gameAlreadyOver) ∧
    (∀ q : Quality, chooseMove s q ≠ .error .gameAlreadyOver) := by
  have hs : s.isGameOver = false := by
    unfold pageEngineCallStates at h
    rcases List.mem_append.mp h with h1 | h2
    · by_cases hg : g.isGameOver = false ∧ g.currentPlayer = .yellow
      · rw [if_pos hg] at h1
        have hsg : s = g.toGame := by simpa using h1
        rw [hsg]
        exact hg.1
      · rw [if_neg hg] at h1
        simp at h1
    · cases hpc : pageAfterComputer g with
      | none =>
        rw [hpc] at h2
        simp at h2
      | some g1 =>
        rw [hpc] at h2
        by_cases hg1 : g1.isGameOver = true
        · simp [hg1] at h2
        · have hsg : s = g1.toGame := by
            simp only [if_neg hg1] at h2
            obtain ⟨_, _, he⟩ := List.mem_map.mp h2
            exact he.symm
          rw [hsg]
          simpa using hg1
  exact ⟨hs, fun c => applyMove_ne_gameAlreadyOver s hs c,
    fun q => chooseMove_ne_gameAlreadyOver s hs q⟩

theorem pageEngineCalls_nonterminal_witness :
    createInitialState ∈ pageEngineCallStates initialExtState ∧
    createInitialState.isGameOver = false := by
  have hmem : createInitialState ∈ pageEngineCallStates initialExtState := by decide
  exact ⟨hmem, (pageEngineCalls_nonterminal initialExtState createInitialState hmem).1⟩

/-- Claim C10: when the loaded state is non-terminal with yellow to move,
the page renders the engine's successor for the computer's chosen column,
copying `minimaxQuality` and `newestPieceColumn` and setting
`newestComputerPieceColumn` to exactly the chosen column; any other state
is rendered unmodified. -/
theorem pageAfterComputer_spec (g : ExtGameState) :
    (g.isGameOver = false → g.currentPlayer = .yellow →
      ∀ m t, chooseMove g.toGame g.minimaxQuality = .ok m →
        applyMove g.toGame (m : Int) = .ok t →
        pageAfterComputer g = some
          { board := t.board, currentPlayer := t.currentPlayer,
            isGameOver := t.isGameOver, winner := t.winner,
            newestPieceColumn := g.newestPieceColumn,
            minimaxQuality := g.minimaxQuality,
            newestComputerPieceColumn := some (m : Int) }) ∧
    (g.isGameOver = true ∨ g.currentPlayer = .red → pageAfterComputer g = some g) := by
  constructor
  · intro hgo hcp m t hchoose happly
    simp [pageAfterComputer, hgo, hcp, hchoose, happly]
  · intro hother
    have : ¬ (g.isGameOver = false ∧ g.currentPlayer = .yellow) := by
      rcases hother with h | h
      · simp [h]
      · simp [h]
    simp [pageAfterComputer, this]

/-- A sample loaded state with the computer (yellow) to move, at Low
quality. -/
def sampleYellowState : ExtGameState :=
  { initialExtState with currentPlayer := .yellow, minimaxQuality := .bad }

/-- The engine successor the computer block produces on
`sampleYellowState`. -/
def sampleYellowNext : GameState :=
  (applyMove sampleYellowState.toGame 3).toOption.getD createInitialState

theorem pageAfterComputer_spec_witness :
    pageAfterComputer sampleYellowState = some
      { board := sampleYellowNext.board, currentPlayer := sampleYellowNext.currentPlayer,
        isGameOver := sampleYellowNext.isGameOver, winner := sampleYellowNext.winner,
        newestPieceColumn := none, minimaxQuality := .bad,
        newestComputerPieceColumn := some 3 } ∧
    pageAfterComputer initialExtState = some initialExtState := by
  constructor
  · exact (pageAfterComputer_spec sampleYellowState).1 rfl rfl 3 sampleYellowNext rfl rfl
  · exact (pageAfterComputer_spec initialExtState).2 (Or.inr rfl)

/-! ### The wire schema round trip (claim C4) -/

theorem mapM_map_id (p : Json → Option α) (enc : α → Json)
    (h : ∀ x, p (enc x) = some x) (xs : List α) :
    (xs.map enc).mapM p = some xs := by
  induction xs with
  | nil => rfl
  | cons x xs ih =>
    rw [List.map_cons, List.mapM_cons, h x, ih]
    rfl

theorem parseColorTs_encode (c : Color) : parseColorTs (encodeColorTs c) = some c := by
  cases c <;> rfl

theorem parseCellTs_encode (x : Cell) : parseCellTs (encodeCellTs x) = some x := by
  cases x with
  | none => rfl
  | some c => cases c <;> rfl

theorem parseWColor_encode (c : WColor) : parseWColor (encodeWColor c) = some c := by
  cases c <;> rfl

theorem parseCellWasm_encode (x : Option WColor) :
    parseCellWasm (encodeCellWasm x) = some x := by
  cases x with
  | none => rfl
  | some c => cases c <;> rfl

theorem parseQuality_encode (q : Quality) : parseQuality (encodeQuality q) = some q := by
  cases q <;> rfl

theorem parseNum_encode (n : Int) : parseNum (Json.num n) = some n := rfl

theorem parseNullable_encodeOpt (p : Json → Option α) (enc : α → Json)
    (h : ∀ x, p (enc x) = some x) (hn : ∀ x, enc x ≠ .null) (o : Option α) :
    parseNullable p (encodeOpt enc o) = some o := by
  cases o with
  | none => rfl
  | some x =>
    have hx := h x
    cases henc : enc x
    all_goals first
      | exact absurd henc (hn x)
      | (rw [henc] at hx; simp [encodeOpt, henc, parseNullable, hx])

theorem parseListWith_encode_cellTs (col : List Cell) :
    parseListWith parseCellTs (.arr (col.map encodeCellTs)) = some col := by
  simp only [parseListWith]
  exact mapM_map_id parseCellTs encodeCellTs parseCellTs_encode col

theorem parseListWith_encode_boardTs (b : Board) :
    parseListWith (parseListWith parseCellTs)
      (.arr (b.map fun col => Json.arr (col.map encodeCellTs))) = some b := by
  simp only [parseListWith]
  exact mapM_map_id (parseListWith parseCellTs)
    (fun col => Json.arr (col.map encodeCellTs)) parseListWith_encode_cellTs b

theorem parseListWith_encode_cellWasm (col : List (Option WColor)) :
    parseListWith parseCellWasm (.arr (col.map encodeCellWasm)) = some col := by
  simp only [parseListWith]
  exact mapM_map_id parseCellWasm encodeCellWasm parseCellWasm_encode col

theorem parseListWith_encode_boardWasm (b : List (List (Option WColor))) :
    parseListWith (parseListWith parseCellWasm)
      (.arr (b.map fun col => Json.arr (col.map encodeCellWasm))) = some b := by
  simp only [parseListWith]
  exact mapM_map_id (parseListWith parseCellWasm)
    (fun col => Json.arr (col.map encodeCellWasm)) parseListWith_encode_cellWasm b

/-- Claim C4: encoding a state through the wire schema (at the JSON value
level) and decoding it through schema validation reproduces a state equal
to the original in every field, for both the camelCase TypeScript variant
and the snake_case WASM variant. -/
theorem wireRoundTrip (s : ExtGameState) (w : WasmExtGameState) :
    parseExtTs (encodeExtTs s) = some s ∧
    parseExtWasm (encodeExtWasm w) = some w := by
  constructor
  · unfold parseExtTs encodeExtTs
    simp [Json.getField, List.lookup, parseListWith_encode_boardTs, parseColorTs_encode,
      parseNullable_encodeOpt parseColorTs encodeColorTs parseColorTs_encode
        (fun x => by cases x <;> simp [encodeColorTs]),
      parseNullable_encodeOpt parseNum Json.num (fun n => rfl) (fun n => by simp),
      parseQuality_encode, parseBool]
  · unfold parseExtWasm encodeExtWasm
    simp [Json.getField, List.lookup, parseListWith_encode_boardWasm, parseWColor_encode,
      parseNullable_encodeOpt parseWColor encodeWColor parseWColor_encode
        (fun x => by cases x <;> simp [encodeWColor]),
      parseNullable_encodeOpt parseNum Json.num (fun n => rfl) (fun n => by simp),
      parseQuality_encode, parseBool]

/-! ### Legality of the chosen move (claim C3) -/

theorem foldlM_applyMove_last : ∀ (ms : List Int) (s0 s : GameState),
    ms.foldlM applyMove s0 = .ok s → s = s0 ∨ ∃ u c, applyMove u c = .ok s := by
  intro ms
  induction ms with
  | nil =>
    intro s0 s h
    left
    have h' : (Except.ok s0 : Except MoveError GameState) = .ok s := h
    exact (Except.ok.inj h').symm
  | cons c cs ih =>
    intro s0 s h
    rw [List.foldlM_cons] at h
    cases happ : applyMove s0 c with
    | error e =>
      rw [happ] at h
      have h' : (Except.error e : Except MoveError GameState) = .ok s := h
      cases h'
    | ok s1 =>
      rw [happ] at h
      have h' : cs.foldlM applyMove s1 = .ok s := h
      rcases ih s1 s h' with rfl | hh
      · exact Or.inr ⟨s0, c, happ⟩
      · exact Or.inr hh

/-- The board after dropping the current player's piece at row `r` of
column `c`. -/
def newB (s : GameState) (c : Int) (r : Nat) : Board :=
  s.board.set c.toNat ((s.board.getD c.toNat []).set r (some s.currentPlayer))

/-- Inversion of a successful `applyMove`: the precise branch structure of
the transition. -/
theorem applyMove_ok_cases (s : GameState) (c : Int) (t : GameState)
    (h : applyMove s c = .ok t) :
    s.isGameOver = false ∧ ¬(c < 0 ∨ 6 < c) ∧
    ∃ r : Nat, (s.board.getD c.toNat []).findIdx? (fun x => decide (x = none)) = some r ∧
      ((checkWinAt (newB s c r) c r s.currentPlayer = true ∧
        t = { s with board := newB s c r, isGameOver := true,
                     winner := some s.currentPlayer }) ∨
       (checkWinAt (newB s c r) c r s.currentPlayer = false ∧
        boardFull (newB s c r) = true ∧
        t = { s with board := newB s c r, isGameOver := true, winner := none }) ∨
       (checkWinAt (newB s c r) c r s.currentPlayer = false ∧
        boardFull (newB s c r) = false ∧
        t = { board := newB s c r, currentPlayer := s.currentPlayer.other,
              isGameOver := false, winner := none })) := by
  simp only [applyMove] at h
  split at h
  · exact absurd h (by simp)
  next hgo =>
    split at h
    · exact absurd h (by simp)
    next hc =>
      refine ⟨by simpa using hgo, hc, ?_⟩
      split at h
      · exact absurd h (by simp)
      next r hidx =>
        refine ⟨r, hidx, ?_⟩
        split at h
        next hwin =>
          injection h with ht
          exact Or.inl ⟨hwin, ht.symm⟩
        next hwin =>
          split at h
          next hfull =>
            injection h with ht
            exact Or.inr (Or.inl ⟨by rwa [Bool.not_eq_true] at hwin, hfull, ht.symm⟩)
          next hfull =>
            injection h with ht
            exact Or.inr (Or.inr ⟨by rwa [Bool.not_eq_true] at hwin,
              by rwa [Bool.not_eq_true] at hfull, ht.symm⟩)

theorem applyMove_ok_notFull (s : GameState) (c : Int) (t : GameState)
    (h : applyMove s c = .ok t) (ht : t.isGameOver = false) :
    boardFull t.board = false := by
  obtain ⟨-, -, r, -, hcase⟩ := applyMove_ok_cases s c t h
  rcases hcase with ⟨-, rfl⟩ | ⟨-, -, rfl⟩ | ⟨-, hfull, rfl⟩
  · simp at ht
  · simp at ht
  · exact hfull

theorem reachable_nonterminal_notFull (s : GameState) (h : Reachable s)
    (hng : s.isGameOver = false) : boardFull s.board = false := by
  obtain ⟨ms, hms⟩ := h
  rcases foldlM_applyMove_last ms createInitialState s hms with rfl | ⟨u, c, huc⟩
  · decide
  · exact applyMove_ok_notFull u c s huc hng

theorem legalMoves_mem (b : Board) (m : Nat) (h : m ∈ legalMoves b) :
    hasRoomB b m = true ∧ m ≤ 6 := by
  obtain ⟨hc, hr⟩ := List.mem_filter.mp h
  refine ⟨hr, ?_⟩
  have hall : ∀ x ∈ centerOrder, x ≤ 6 := by decide
  exact hall m hc

theorem legalMoves_ne_nil (b : Board) (h : boardFull b = false) :
    legalMoves b ≠ [] := by
  rw [boardFull] at h
  obtain ⟨c, hc, hroom⟩ := List.all_eq_false.mp h
  have hcc : c ∈ centerOrder := by
    have h7 := List.mem_range.mp hc
    have : ∀ x < 7, x ∈ centerOrder := by decide
    exact this c h7
  have hroom' : hasRoomB b c = true := by simpa using hroom
  exact List.ne_nil_of_mem (List.mem_filter.mpr ⟨hcc, hroom'⟩)

theorem abRootLoop_mem (f : Nat → Int → Int → Int) :
    ∀ (ms : List Nat) (best : Nat) (bv : Int),
      abRootLoop f ms best bv = best ∨ abRootLoop f ms best bv ∈ ms := by
  intro ms
  induction ms with
  | nil => intro best bv; exact Or.inl rfl
  | cons m ms ih =>
    intro best bv
    simp only [abRootLoop]
    split
    · right
      rcases ih m (f m bv bestTop) with h | h
      · rw [h]
        exact List.mem_cons_self m ms
      · exact List.mem_cons_of_mem m h
    · rcases ih best bv with h | h
      · exact Or.inl h
      · exact Or.inr (List.mem_cons_of_mem m h)

theorem mmRootLoop_mem (g : Nat → Int) :
    ∀ (ms : List Nat) (best : Nat) (bv : Int),
      mmRootLoop g ms best bv = best ∨ mmRootLoop g ms best bv ∈ ms := by
  intro ms
  induction ms with
  | nil => intro best bv; exact Or.inl rfl
  | cons m ms ih =>
    intro best bv
    simp only [mmRootLoop]
    split
    · right
      rcases ih m (g m) with h | h
      · rw [h]
        exact List.mem_cons_self m ms
      · exact List.mem_cons_of_mem m h
    · rcases ih best bv with h | h
      · exact Or.inl h
      · exact Or.inr (List.mem_cons_of_mem m h)

/-- Claim C3: on a terminal state `chooseMove` fails with
`gameAlreadyOver`; on a board with no room it fails with `noLegalMoves`;
and on every non-terminal reachable state it returns, at every quality
tier, a column index in [0, 6] whose column still has an empty cell. -/
theorem chooseMove_contract (s : GameState) (q : Quality) :
    (s.isGameOver = true → chooseMove s q = .error .gameAlreadyOver) ∧
    (s.isGameOver = false → legalMoves s.board = [] →
      chooseMove s q = .error .noLegalMoves) ∧
    (Reachable s → s.isGameOver = false →
      ∃ m, chooseMove s q = .ok m ∧ m ≤ 6 ∧ hasRoomB s.board m = true) := by
  refine ⟨fun h => by simp [chooseMove, h], fun h hleg => by simp [chooseMove, h, hleg], ?_⟩
  intro hreach hng
  have hnotfull := reachable_nonterminal_notFull s hreach hng
  have hne := legalMoves_ne_nil s.board hnotfull
  cases hlegal : legalMoves s.board with
  | nil => exact absurd hlegal hne
  | cons m ms =>
    have hmem : ∀ x, x ∈ m :: ms → hasRoomB s.board x = true ∧ x ≤ 6 := by
      intro x hx
      rw [← hlegal] at hx
      exact legalMoves_mem s.board x hx
    unfold chooseMove
    rw [hng]
    simp only [Bool.false_eq_true, if_false, hlegal]
    cases q with
    | bad =>
      cases hfw : findWin s with
      | some w =>
        have hwmem : w ∈ m :: ms := by
          have := List.mem_of_find?_eq_some hfw
          rwa [legalMoves, ← legalMoves, hlegal] at this
        obtain ⟨hroom, hle⟩ := hmem w hwmem
        exact ⟨w, by simp [hfw], hle, hroom⟩
      | none =>
        cases hfb : findBlock s with
        | some w =>
          have hwmem : w ∈ m :: ms := by
            have := List.mem_of_find?_eq_some hfb
            rwa [legalMoves, ← legalMoves, hlegal] at this
          obtain ⟨hroom, hle⟩ := hmem w hwmem
          exact ⟨w, by simp [hfw, hfb], hle, hroom⟩
        | none =>
          obtain ⟨hroom, hle⟩ := hmem m (List.mem_cons_self m ms)
          exact ⟨m, by simp [hfw, hfb], hle, hroom⟩
    | medium =>
      have hr : mmRootLoop (fun m2 => mmVal s.currentPlayer midDepth (step s m2)) ms m
          (mmVal s.currentPlayer midDepth (step s m)) = m ∨
          mmRootLoop (fun m2 => mmVal s.currentPlayer midDepth (step s m2)) ms m
          (mmVal s.currentPlayer midDepth (step s m)) ∈ ms :=
        mmRootLoop_mem _ ms m _
      have hrm : mmRootLoop (fun m2 => mmVal s.currentPlayer midDepth (step s m2)) ms m
          (mmVal s.currentPlayer midDepth (step s m)) ∈ m :: ms := by
        rcases hr with h | h
        · rw [h]
          exact List.mem_cons_self m ms
        · exact List.mem_cons_of_mem m h
      obtain ⟨hroom, hle⟩ := hmem _ hrm
      exact ⟨_, rfl, hle, hroom⟩
    | best =>
      have hr := abRootLoop_mem
        (fun m2 a b => abVal s.currentPlayer hiDepth (step s m2) a b) ms m
        (abVal s.currentPlayer hiDepth (step s m) (-bestTop) bestTop)
      have hrm : abRootLoop (fun m2 a b => abVal s.currentPlayer hiDepth (step s m2) a b)
          ms m (abVal s.currentPlayer hiDepth (step s m) (-bestTop) bestTop) ∈ m :: ms := by
        rcases hr with h | h
        · rw [h]
          exact List.mem_cons_self m ms
        · exact List.mem_cons_of_mem m h
      obtain ⟨hroom, hle⟩ := hmem _ hrm
      exact ⟨_, rfl, hle, hroom⟩

theorem chooseMove_contract_witness :
    chooseMove { createInitialState with isGameOver := true } Quality.best =
      .error .gameAlreadyOver ∧
    (chooseMove createInitialState Quality.bad).toOption.isSome = true := by
  refine ⟨(chooseMove_contract _ Quality.best).1 rfl, ?_⟩
  obtain ⟨m, hm, _, _⟩ :=
    (chooseMove_contract createInitialState Quality.bad).2.2 ⟨[], rfl⟩ rfl
  rw [hm]
  rfl

/-! ### Alpha-beta pruning does not change the chosen move (claim C7) -/

theorem abMaxL_stop (f : Nat → Int → Int → Int) (beta : Int) :
    ∀ (ms : List Nat) (acc : Int), beta ≤ acc → abMaxL f beta ms acc = acc := by
  intro ms acc h
  cases ms with
  | nil => rfl
  | cons m ms =>
    simp only [abMaxL]
    rw [if_pos h]

theorem abMinL_stop (f : Nat → Int → Int → Int) (alpha : Int) :
    ∀ (ms : List Nat) (acc : Int), acc ≤ alpha → abMinL f alpha ms acc = acc := by
  intro ms acc h
  cases ms with
  | nil => rfl
  | cons m ms =>
    simp only [abMinL]
    rw [if_pos h]

theorem seed_le_foldlMax (g : Nat → Int) :
    ∀ (ms : List Nat) (x : Int), x ≤ ms.foldl (fun acc m => max acc (g m)) x := by
  intro ms
  induction ms with
  | nil => intro x; exact le_refl x
  | cons m ms ih =>
    intro x
    simp only [List.foldl_cons]
    exact le_trans (le_max_left x (g m)) (ih (max x (g m)))

theorem foldlMin_le_seed (g : Nat → Int) :
    ∀ (ms : List Nat) (x : Int), ms.foldl (fun acc m => min acc (g m)) x ≤ x := by
  intro ms
  induction ms with
  | nil => intro x; exact le_refl x
  | cons m ms ih =>
    intro x
    simp only [List.foldl_cons]
    exact le_trans (ih (min x (g m))) (min_le_left x (g m))

theorem foldlMax_init (g : Nat → Int) :
    ∀ (ms : List Nat) (x y : Int),
      ms.foldl (fun acc m => max acc (g m)) (max x y) =
        max x (ms.foldl (fun acc m => max acc (g m)) y) := by
  intro ms
  induction ms with
  | nil => intro x y; rfl
  | cons m ms ih =>
    intro x y
    simp only [List.foldl_cons]
    rw [max_assoc]
    exact ih x (max y (g m))

theorem foldlMin_init (g : Nat → Int) :
    ∀ (ms : List Nat) (x y : Int),
      ms.foldl (fun acc m => min acc (g m)) (min x y) =
        min x (ms.foldl (fun acc m => min acc (g m)) y) := by
  intro ms
  induction ms with
  | nil => intro x y; rfl
  | cons m ms ih =>
    intro x y
    simp only [List.foldl_cons]
    rw [min_assoc]
    exact ih x (min y (g m))

/-- The window soundness property of an alpha-beta child evaluator `f`
with respect to the true child values `g`: below the window it fails low,
above it fails high, inside it is exact. -/
def ABApprox (g : Nat → Int) (f : Nat → Int → Int → Int) (ms : List Nat) : Prop :=
  ∀ m ∈ ms, ∀ a b : Int, a < b →
    (g m ≤ a → f m a b ≤ a) ∧ (b ≤ g m → b ≤ f m a b) ∧
    (a < g m → g m < b → f m a b = g m)

theorem abMaxL_spec (g : Nat → Int) (f : Nat → Int → Int → Int) :
    ∀ (ms : List Nat) (acc beta : Int), ABApprox g f ms → acc < beta →
      acc ≤ abMaxL f beta ms acc ∧
      (beta ≤ ms.foldl (fun x m => max x (g m)) acc → beta ≤ abMaxL f beta ms acc) ∧
      (ms.foldl (fun x m => max x (g m)) acc < beta →
        abMaxL f beta ms acc = ms.foldl (fun x m => max x (g m)) acc) := by
  intro ms
  induction ms with
  | nil =>
    intro acc beta _ hab
    exact ⟨le_refl _, fun h => (absurd (lt_of_lt_of_le hab h) (lt_irrefl _) : _),
      fun _ => rfl⟩
  | cons m ms ih =>
    intro acc beta hch hab
    have hchm := hch m (List.mem_cons_self m ms) acc beta hab
    have hchrest : ABApprox g f ms := fun m' hm' => hch m' (List.mem_cons_of_mem m hm')
    have hstep : abMaxL f beta (m :: ms) acc = abMaxL f beta ms (max acc (f m acc beta)) := by
      simp only [abMaxL]
      rw [if_neg (not_le.mpr hab)]
    have hfold : (m :: ms).foldl (fun x m2 => max x (g m2)) acc =
        ms.foldl (fun x m2 => max x (g m2)) (max acc (g m)) := rfl
    rcases le_or_lt (g m) acc with h1 | h1
    · have hv : f m acc beta ≤ acc := hchm.1 h1
      have hacc : max acc (f m acc beta) = acc := max_eq_left hv
      have hgm : max acc (g m) = acc := max_eq_left h1
      rw [hstep, hacc, hfold, hgm]
      exact ih acc beta hchrest hab
    · rcases lt_or_le (g m) beta with h2 | h2
      · have hv : f m acc beta = g m := hchm.2.2 h1 h2
        have hacc : max acc (f m acc beta) = g m := by rw [hv]; exact max_eq_right h1.le
        have hgm : max acc (g m) = g m := max_eq_right h1.le
        rw [hstep, hacc, hfold, hgm]
        have hrec := ih (g m) beta hchrest h2
        exact ⟨le_trans h1.le hrec.1, hrec.2.1, hrec.2.2⟩
      · have hv : beta ≤ f m acc beta := hchm.2.1 h2
        have hstop : abMaxL f beta ms (max acc (f m acc beta)) = max acc (f m acc beta) :=
          abMaxL_stop f beta ms _ (le_trans hv (le_max_right _ _))
        rw [hstep, hstop, hfold]
        refine ⟨le_max_left _ _, fun _ => le_trans hv (le_max_right _ _), fun h3 => ?_⟩
        have h4 : g m ≤ max acc (g m) := le_max_right _ _
        have h5 : max acc (g m) ≤ ms.foldl (fun x m2 => max x (g m2)) (max acc (g m)) :=
          seed_le_foldlMax g ms _
        exact absurd h3 (not_lt.mpr (le_trans h2 (le_trans h4 h5)))

theorem abMinL_spec (g : Nat → Int) (f : Nat → Int → Int → Int) :
    ∀ (ms : List Nat) (acc alpha : Int), ABApprox g f ms → alpha < acc →
      abMinL f alpha ms acc ≤ acc ∧
      (ms.foldl (fun x m => min x (g m)) acc ≤ alpha →
        abMinL f alpha ms acc ≤ alpha) ∧
      (alpha < ms.foldl (fun x m => min x (g m)) acc →
        abMinL f alpha ms acc = ms.foldl (fun x m => min x (g m)) acc) := by
  intro ms
  induction ms with
  | nil =>
    intro acc alpha _ hab
    exact ⟨le_refl _, fun h => (absurd (lt_of_lt_of_le hab h) (lt_irrefl _) : _),
      fun _ => rfl⟩
  | cons m ms ih =>
    intro acc alpha hch hab
    have hchm := hch m (List.mem_cons_self m ms) alpha acc hab
    have hchrest : ABApprox g f ms := fun m' hm' => hch m' (List.mem_cons_of_mem m hm')
    have hstep : abMinL f alpha (m :: ms) acc = abMinL f alpha ms (min acc (f m alpha acc)) := by
      simp only [abMinL]
      rw [if_neg (not_le.mpr hab)]
    have hfold : (m :: ms).foldl (fun x m2 => min x (g m2)) acc =
        ms.foldl (fun x m2 => min x (g m2)) (min acc (g m)) := rfl
    rcases le_or_lt acc (g m) with h1 | h1
    · have hv : acc ≤ f m alpha acc := hchm.2.1 h1
      have hacc : min acc (f m alpha acc) = acc := min_eq_left hv
      have hgm : min acc (g m) = acc := min_eq_left h1
      rw [hstep, hacc, hfold, hgm]
      exact ih acc alpha hchrest hab
    · rcases lt_or_le alpha (g m) with h2 | h2
      · have hv : f m alpha acc = g m := hchm.2.2 h2 h1
        have hacc : min acc (f m alpha acc) = g m := by rw [hv]; exact min_eq_right h1.le
        have hgm : min acc (g m) = g m := min_eq_right h1.le
        rw [hstep, hacc, hfold, hgm]
        have hrec := ih (g m) alpha hchrest h2
        exact ⟨le_trans hrec.1 h1.le, hrec.2.1, hrec.2.2⟩
      · have hv : f m alpha acc ≤ alpha := hchm.1 h2
        have hstop : abMinL f alpha ms (min acc (f m alpha acc)) = min acc (f m alpha acc) :=
          abMinL_stop f alpha ms _ (le_trans (min_le_right _ _) hv)
        rw [hstep, hstop, hfold]
        refine ⟨min_le_left _ _, fun _ => le_trans (min_le_right _ _) hv, fun h3 => ?_⟩
        have h4 : min acc (g m) ≤ g m := min_le_right _ _
        have h5 : ms.foldl (fun x m2 => min x (g m2)) (min acc (g m)) ≤ min acc (g m) :=
          foldlMin_le_seed g ms _
        exact absurd h3 (not_lt.mpr (le_trans h5 (le_trans h4 h2)))

/-- Window soundness of the full alpha-beta evaluator with respect to the
unpruned minimax value, at every depth and for every state and window. -/
theorem abVal_approx (e : Color) : ∀ (d : Nat) (s : GameState) (a b : Int), a < b →
    (mmVal e d s ≤ a → abVal e d s a b ≤ a) ∧
    (b ≤ mmVal e d s → b ≤ abVal e d s a b) ∧
    (a < mmVal e d s → mmVal e d s < b → abVal e d s a b = mmVal e d s) := by
  intro d
  induction d with
  | zero =>
    intro s a b hab
    exact ⟨fun h => h, fun h => h, fun _ _ => rfl⟩
  | succ d ih =>
    intro s a b hab
    by_cases hgo : s.isGameOver = true
    · have hmm : mmVal e (d + 1) s = terminalScore e s (d + 1) := by
        rw [mmVal, if_pos hgo]
      have hub : abVal e (d + 1) s a b = terminalScore e s (d + 1) := by
        rw [abVal, if_pos hgo]
      rw [hmm, hub]
      exact ⟨fun h => h, fun h => h, fun _ _ => rfl⟩
    · cases hleg : legalMoves s.board with
      | nil =>
        have hmm : mmVal e (d + 1) s = heuristic e s.board := by
          rw [mmVal, if_neg hgo, hleg]
        have hub : abVal e (d + 1) s a b = heuristic e s.board := by
          rw [abVal, if_neg hgo, hleg]
        rw [hmm, hub]
        exact ⟨fun h => h, fun h => h, fun _ _ => rfl⟩
      | cons m ms =>
        have hch : ABApprox (fun m2 => mmVal e d (step s m2))
            (fun m2 x y => abVal e d (step s m2) x y) (m :: ms) :=
          fun m2 _ x y hxy => ih (step s m2) x y hxy
        by_cases hmax : s.currentPlayer = e
        · have hmm : mmVal e (d + 1) s =
              ms.foldl (fun x m2 => max x (mmVal e d (step s m2))) (mmVal e d (step s m)) := by
            simp [mmVal, hgo, hleg, hmax, List.foldl_map]
          have hub : abVal e (d + 1) s a b =
              abMaxL (fun m2 x y => abVal e d (step s m2) x y) b (m :: ms) a := by
            simp [abVal, hgo, hleg, hmax]
          have hspec := abMaxL_spec (fun m2 => mmVal e d (step s m2))
            (fun m2 x y => abVal e d (step s m2) x y) (m :: ms) a b hch hab
          have hfold : (m :: ms).foldl (fun x m2 => max x (mmVal e d (step s m2))) a =
              max a (ms.foldl (fun x m2 => max x (mmVal e d (step s m2)))
                (mmVal e d (step s m))) := by
            simp only [List.foldl_cons]
            have := foldlMax_init (fun m2 => mmVal e d (step s m2)) ms a (mmVal e d (step s m))
            exact this
          rw [hmm, hub]
          set t := ms.foldl (fun x m2 => max x (mmVal e d (step s m2))) (mmVal e d (step s m))
            with ht
          rw [hfold] at hspec
          refine ⟨fun h1 => ?_, fun h2 => ?_, fun h3 h4 => ?_⟩
          · have : max a t = a := max_eq_left h1
            rw [this] at hspec
            have := hspec.2.2 hab
            omega
          · have hx : b ≤ max a t := le_trans h2 (le_max_right a t)
            exact hspec.2.1 hx
          · have : max a t = t := max_eq_right h3.le
            rw [this] at hspec
            exact hspec.2.2 h4
        · have hmm : mmVal e (d + 1) s =
              ms.foldl (fun x m2 => min x (mmVal e d (step s m2))) (mmVal e d (step s m)) := by
            simp [mmVal, hgo, hleg, hmax, List.foldl_map]
          have hub : abVal e (d + 1) s a b =
              abMinL (fun m2 x y => abVal e d (step s m2) x y) a (m :: ms) b := by
            simp [abVal, hgo, hleg, hmax]
          have hspec := abMinL_spec (fun m2 => mmVal e d (step s m2))
            (fun m2 x y => abVal e d (step s m2) x y) (m :: ms) b a hch hab
          have hfold : (m :: ms).foldl (fun x m2 => min x (mmVal e d (step s m2))) b =
              min b (ms.foldl (fun x m2 => min x (mmVal e d (step s m2)))
                (mmVal e d (step s m))) := by
            simp only [List.foldl_cons]
            exact foldlMin_init (fun m2 => mmVal e d (step s m2)) ms b (mmVal e d (step s m))
          rw [hmm, hub]
          set t := ms.foldl (fun x m2 => min x (mmVal e d (step s m2))) (mmVal e d (step s m))
            with ht
          rw [hfold] at hspec
          refine ⟨fun h1 => ?_, fun h2 => ?_, fun h3 h4 => ?_⟩
          · have hx : min b t ≤ a := le_trans (min_le_right b t) h1
            exact hspec.2.1 hx
          · have : min b t = b := min_eq_left h2
            rw [this] at hspec
            have := hspec.2.2 hab
            omega
          · have : min b t = t := min_eq_right h4.le
            rw [this] at hspec
            exact hspec.2.2 h3

theorem list_sum_le_bound (l : List Int) (K : Int) (h : ∀ x ∈ l, x ≤ K) :
    l.sum ≤ K * l.length := by
  induction l with
  | nil => simp
  | cons x xs ih =>
    simp only [List.sum_cons, List.length_cons]
    have h1 := h x (List.mem_cons_self x xs)
    have h2 := ih fun y hy => h y (List.mem_cons_of_mem x hy)
    have h3 : K * ((xs.length : Int) + 1) = K * xs.length + K := by ring
    push_cast
    rw [h3]
    linarith

theorem list_sum_ge_bound (l : List Int) (K : Int) (h : ∀ x ∈ l, -K ≤ x) :
    -(K * l.length) ≤ l.sum := by
  induction l with
  | nil => simp
  | cons x xs ih =>
    simp only [List.sum_cons, List.length_cons]
    have h1 := h x (List.mem_cons_self x xs)
    have h2 := ih fun y hy => h y (List.mem_cons_of_mem x hy)
    have h3 : -(K * ((xs.length : Int) + 1)) = -(K * xs.length) - K := by ring
    push_cast
    rw [h3]
    linarith

theorem windowScore_bound (e : Color) (w : List Cell) :
    -50 ≤ windowScore e w ∧ windowScore e w ≤ 50 := by
  simp only [windowScore]
  split_ifs <;> omega

theorem axesSum_bound (e : Color) (b : Board) (c r : Int) :
    -200 ≤ (axes.map fun d => windowScore e (windowCells b c r d.1 d.2)).sum ∧
    (axes.map fun d => windowScore e (windowCells b c r d.1 d.2)).sum ≤ 200 := by
  constructor
  · have := list_sum_ge_bound (axes.map fun d => windowScore e (windowCells b c r d.1 d.2)) 50
      (by
        intro x hx
        obtain ⟨d, -, rfl⟩ := List.mem_map.mp hx
        exact (windowScore_bound e _).1)
    simpa [axes] using this
  · have := list_sum_le_bound (axes.map fun d => windowScore e (windowCells b c r d.1 d.2)) 50
      (by
        intro x hx
        obtain ⟨d, -, rfl⟩ := List.mem_map.mp hx
        exact (windowScore_bound e _).2)
    simpa [axes] using this

theorem rowSum_bound (e : Color) (b : Board) (c : Int) :
    -1200 ≤ ((List.range 6).map fun r =>
        (axes.map fun d => windowScore e (windowCells b c r d.1 d.2)).sum).sum ∧
    ((List.range 6).map fun r =>
        (axes.map fun d => windowScore e (windowCells b c r d.1 d.2)).sum).sum ≤ 1200 := by
  constructor
  · have := list_sum_ge_bound ((List.range 6).map fun r =>
        (axes.map fun d => windowScore e (windowCells b c r d.1 d.2)).sum) 200
      (by
        intro x hx
        obtain ⟨r, -, rfl⟩ := List.mem_map.mp hx
        exact (axesSum_bound e b c r).1)
    simpa using this
  · have := list_sum_le_bound ((List.range 6).map fun r =>
        (axes.map fun d => windowScore e (windowCells b c r d.1 d.2)).sum) 200
      (by
        intro x hx
        obtain ⟨r, -, rfl⟩ := List.mem_map.mp hx
        exact (axesSum_bound e b c r).2)
    simpa using this

theorem colSum_bound (e : Color) (b : Board) :
    -8400 ≤ boardThreatScore e b ∧ boardThreatScore e b ≤ 8400 := by
  unfold boardThreatScore
  constructor
  · have := list_sum_ge_bound ((List.range 7).map fun c => ((List.range 6).map fun r =>
        (axes.map fun d => windowScore e (windowCells b c r d.1 d.2)).sum).sum) 1200
      (by
        intro x hx
        obtain ⟨c, -, rfl⟩ := List.mem_map.mp hx
        exact (rowSum_bound e b c).1)
    simpa using this
  · have := list_sum_le_bound ((List.range 7).map fun c => ((List.range 6).map fun r =>
        (axes.map fun d => windowScore e (windowCells b c r d.1 d.2)).sum).sum) 1200
      (by
        intro x hx
        obtain ⟨c, -, rfl⟩ := List.mem_map.mp hx
        exact (rowSum_bound e b c).2)
    simpa using this

theorem heuristic_bound (e : Color) (b : Board) (hwf : BoardWF b) :
    -8418 ≤ heuristic e b ∧ heuristic e b ≤ 8418 := by
  have hlen : (b.getD 3 []).length = 6 := by
    have h3 : 3 < b.length := by rw [hwf.1]; omega
    rw [List.getD_eq_getElem b [] h3]
    exact hwf.2 _ (List.getElem_mem h3)
  have hc1 : (b.getD 3 []).countP (fun x => decide (x = some e)) ≤ 6 := by
    rw [← hlen]
    exact List.countP_le_length _
  have hc2 : (b.getD 3 []).countP (fun x => decide (x = some e.other)) ≤ 6 := by
    rw [← hlen]
    exact List.countP_le_length _
  have hsum := colSum_bound e b
  simp only [heuristic]
  omega

theorem terminalScore_bound (e : Color) (s : GameState) (d : Nat) :
    -(winScore + (d : Int)) ≤ terminalScore e s d ∧ terminalScore e s d ≤ winScore + d := by
  have h : terminalScore e s d = 0 ∨ terminalScore e s d = winScore + d ∨
      terminalScore e s d = -(winScore + (d : Int)) := by
    unfold terminalScore
    cases s.winner with
    | none => exact Or.inl rfl
    | some w =>
      by_cases hw : w = e
      · exact Or.inr (Or.inl (by simp [hw]))
      · exact Or.inr (Or.inr (by simp [hw]))
  have hws : (0 : Int) ≤ winScore := by norm_num [winScore]
  have hd : (0 : Int) ≤ (d : Int) := Int.ofNat_nonneg d
  rcases h with h | h | h <;> rw [h] <;> constructor <;> linarith

theorem foldlMax_bound (g : Nat → Int) (lo hi : Int) :
    ∀ (ms : List Nat) (v : Int), lo ≤ v → v ≤ hi →
      (∀ m ∈ ms, lo ≤ g m ∧ g m ≤ hi) →
      lo ≤ ms.foldl (fun x m => max x (g m)) v ∧
        ms.foldl (fun x m => max x (g m)) v ≤ hi := by
  intro ms
  induction ms with
  | nil => intro v h1 h2 _; exact ⟨h1, h2⟩
  | cons m ms ih =>
    intro v h1 h2 h3
    simp only [List.foldl_cons]
    have hm := h3 m (List.mem_cons_self m ms)
    exact ih (max v (g m)) (le_trans h1 (le_max_left _ _)) (max_le h2 hm.2)
      fun m' hm' => h3 m' (List.mem_cons_of_mem m hm')

theorem foldlMin_bound (g : Nat → Int) (lo hi : Int) :
    ∀ (ms : List Nat) (v : Int), lo ≤ v → v ≤ hi →
      (∀ m ∈ ms, lo ≤ g m ∧ g m ≤ hi) →
      lo ≤ ms.foldl (fun x m => min x (g m)) v ∧
        ms.foldl (fun x m => min x (g m)) v ≤ hi := by
  intro ms
  induction ms with
  | nil => intro v h1 h2 _; exact ⟨h1, h2⟩
  | cons m ms ih =>
    intro v h1 h2 h3
    simp only [List.foldl_cons]
    have hm := h3 m (List.mem_cons_self m ms)
    exact ih (min v (g m)) (le_min h1 hm.1) (le_trans (min_le_left _ _) h2)
      fun m' hm' => h3 m' (List.mem_cons_of_mem m hm')

theorem applyMove_ok_WF (s : GameState) (c : Int) (t : GameState)
    (h : applyMove s c = .ok t) (hwf : BoardWF s.board) : BoardWF t.board := by
  obtain ⟨-, hc, r, -, hcase⟩ := applyMove_ok_cases s c t h
  have hb : BoardWF (newB s c r) := by
    constructor
    · rw [newB, List.length_set]
      exact hwf.1
    · intro col hcol
      rcases List.mem_or_eq_of_mem_set hcol with hmem | rfl
      · exact hwf.2 col hmem
      · rw [List.length_set]
        have hlt : c.toNat < s.board.length := by rw [hwf.1]; omega
        rw [List.getD_eq_getElem s.board [] hlt]
        exact hwf.2 _ (List.getElem_mem hlt)
  rcases hcase with ⟨-, rfl⟩ | ⟨-, -, rfl⟩ | ⟨-, -, rfl⟩ <;> exact hb

theorem step_WF (s : GameState) (m : Nat) (hwf : BoardWF s.board) :
    BoardWF (step s m).board := by
  unfold step
  split
  · next t heq => exact applyMove_ok_WF s _ t heq hwf
  · exact hwf

theorem mmVal_bound (e : Color) : ∀ (d : Nat) (s : GameState), BoardWF s.board →
    -(winScore + (d : Int)) ≤ mmVal e d s ∧ mmVal e d s ≤ winScore + d := by
  intro d
  induction d with
  | zero =>
    intro s hwf
    simp only [mmVal]
    split
    · exact terminalScore_bound e s 0
    · have := heuristic_bound e s.board hwf
      simp only [winScore]
      omega
  | succ d ih =>
    intro s hwf
    by_cases hgo : s.isGameOver = true
    · have hmm : mmVal e (d + 1) s = terminalScore e s (d + 1) := by
        rw [mmVal, if_pos hgo]
      rw [hmm]
      exact terminalScore_bound e s (d + 1)
    · cases hleg : legalMoves s.board with
      | nil =>
        have hmm : mmVal e (d + 1) s = heuristic e s.board := by
          rw [mmVal, if_neg hgo, hleg]
        rw [hmm]
        have := heuristic_bound e s.board hwf
        simp only [winScore]
        push_cast
        omega
      | cons m ms =>
        have hchild : ∀ m2 : Nat, -(winScore + ((d : Int) + 1)) ≤ mmVal e d (step s m2) ∧
            mmVal e d (step s m2) ≤ winScore + ((d : Int) + 1) := by
          intro m2
          have := ih (step s m2) (step_WF s m2 hwf)
          constructor <;> [linarith [this.1]; linarith [this.2]]
        by_cases hmax : s.currentPlayer = e
        · have hmm : mmVal e (d + 1) s =
              ms.foldl (fun x m2 => max x (mmVal e d (step s m2))) (mmVal e d (step s m)) := by
            simp [mmVal, hgo, hleg, hmax, List.foldl_map]
          rw [hmm]
          have := foldlMax_bound (fun m2 => mmVal e d (step s m2))
            (-(winScore + ((d : Int) + 1))) (winScore + ((d : Int) + 1)) ms
            (mmVal e d (step s m)) (hchild m).1 (hchild m).2 (fun m2 _ => hchild m2)
          push_cast
          constructor <;> [linarith [this.1]; linarith [this.2]]
        · have hmm : mmVal e (d + 1) s =
              ms.foldl (fun x m2 => min x (mmVal e d (step s m2))) (mmVal e d (step s m)) := by
            simp [mmVal, hgo, hleg, hmax, List.foldl_map]
          rw [hmm]
          have := foldlMin_bound (fun m2 => mmVal e d (step s m2))
            (-(winScore + ((d : Int) + 1))) (winScore + ((d : Int) + 1)) ms
            (mmVal e d (step s m)) (hchild m).1 (hchild m).2 (fun m2 _ => hchild m2)
          push_cast
          constructor <;> [linarith [this.1]; linarith [this.2]]

theorem rootLoop_eq (g : Nat → Int) (f : Nat → Int → Int → Int) :
    ∀ (ms : List Nat) (best : Nat) (bv : Int), ABApprox g f ms →
      (∀ m ∈ ms, g m < bestTop) → bv < bestTop →
      abRootLoop f ms best bv = mmRootLoop g ms best bv := by
  intro ms
  induction ms with
  | nil => intro best bv _ _ _; rfl
  | cons m ms ih =>
    intro best bv hap hbd hbv
    have hm := hap m (List.mem_cons_self m ms) bv bestTop hbv
    have haprest : ABApprox g f ms := fun m' hm' => hap m' (List.mem_cons_of_mem m hm')
    have hbdrest : ∀ m' ∈ ms, g m' < bestTop :=
      fun m' hm' => hbd m' (List.mem_cons_of_mem m hm')
    simp only [abRootLoop, mmRootLoop]
    rcases le_or_lt (g m) bv with h1 | h1
    · have hf : f m bv bestTop ≤ bv := hm.1 h1
      rw [if_neg (not_lt.mpr hf), if_neg (not_lt.mpr h1)]
      exact ih best bv haprest hbdrest hbv
    · have hf : f m bv bestTop = g m := hm.2.2 h1 (hbd m (List.mem_cons_self m ms))
      rw [hf, if_pos h1, if_pos h1]
      exact ih m (g m) haprest hbdrest (hbd m (List.mem_cons_self m ms))

theorem abRoot_eq_mmRoot (e : Color) (d : Nat) (s : GameState) (hwf : BoardWF s.board)
    (hd : winScore + (d : Int) < bestTop) : abRoot e d s = mmRoot e d s := by
  cases hleg : legalMoves s.board with
  | nil => simp [abRoot, mmRoot, hleg]
  | cons m ms =>
    have hbound : ∀ m2 : Nat, -bestTop < mmVal e d (step s m2) ∧
        mmVal e d (step s m2) < bestTop := by
      intro m2
      have := mmVal_bound e d (step s m2) (step_WF s m2 hwf)
      constructor <;> [linarith [this.1]; linarith [this.2]]
    have hinit : abVal e d (step s m) (-bestTop) bestTop = mmVal e d (step s m) := by
      have hab : (-bestTop : Int) < bestTop := by
        have : (0 : Int) < bestTop := by norm_num [bestTop]
        linarith
      exact (abVal_approx e d (step s m) (-bestTop) bestTop hab).2.2 (hbound m).1 (hbound m).2
    simp only [abRoot, mmRoot, hleg]
    rw [hinit]
    congr 1
    exact rootLoop_eq (fun m2 => mmVal e d (step s m2))
      (fun m2 x y => abVal e d (step s m2) x y) ms m (mmVal e d (step s m))
      (fun m2 _ x y hxy => abVal_approx e d (step s m2) x y hxy)
      (fun m2 _ => (hbound m2).2) (hbound m).2

/-- The reference chooser the specification describes: unpruned fixed-depth
minimax at the High tier's depth, with the same evaluation and
center-outward order (to be compared with the alpha-beta `chooseMove`). -/
def mmChoose (s : GameState) : Except MoveError Nat :=
  if s.isGameOver then .error .gameAlreadyOver
  else
    match mmRoot s.currentPlayer hiDepth s with
    | none => .error .noLegalMoves
    | some m => .ok m

/-- Claim C7: at High quality, on every well-formed state the column of the
alpha-beta-pruned search equals the column of unpruned fixed-depth minimax
with the same depth, evaluation, and center-outward order; pruning never
changes the chosen move. -/
theorem abPruning_preserves_choice (s : GameState) (hwf : BoardWF s.board) :
    abRoot s.currentPlayer hiDepth s = mmRoot s.currentPlayer hiDepth s ∧
    chooseMove s .best = mmChoose s := by
  have hd : winScore + (hiDepth : Int) < bestTop := by norm_num [winScore, bestTop, hiDepth]
  have h1 := abRoot_eq_mmRoot s.currentPlayer hiDepth s hwf hd
  refine ⟨h1, ?_⟩
  unfold chooseMove mmChoose
  by_cases hgo : s.isGameOver = true
  · rw [if_pos hgo, if_pos hgo]
  · rw [if_neg hgo, if_neg hgo]
    cases hleg : legalMoves s.board with
    | nil =>
      have h2 : mmRoot s.currentPlayer hiDepth s = none := by
        unfold mmRoot
        rw [hleg]
      rw [h2]
    | cons m ms =>
      simp only [abRoot, mmRoot, hleg] at h1
      have h2 : mmRoot s.currentPlayer hiDepth s =
          some (mmRootLoop (fun m2 => mmVal s.currentPlayer hiDepth (step s m2)) ms m
            (mmVal s.currentPlayer hiDepth (step s m))) := by
        unfold mmRoot
        rw [hleg]
      rw [h2]
      exact congrArg Except.ok (Option.some.inj h1)

theorem abPruning_preserves_choice_witness :
    BoardWF createInitialState.board ∧
    chooseMove createInitialState .best = mmChoose createInitialState :=
  ⟨by decide, (abPruning_preserves_choice createInitialState (by decide)).2⟩

/-! ### Win reporting on the completing move (claim C1) -/

theorem cellAt_neg (b : Board) (x y : Int) (h : ¬(0 ≤ x ∧ 0 ≤ y)) :
    cellAt b x y = none := by
  unfold cellAt
  rw [if_neg h]

theorem cellAt_some_bounds (b : Board) (hwf : BoardWF b) (x y : Int) (v : Color)
    (h : cellAt b x y = some v) : 0 ≤ x ∧ x < 7 ∧ 0 ≤ y ∧ y < 6 := by
  unfold cellAt at h
  split at h
  next hsign =>
    obtain ⟨hx, hy⟩ := hsign
    have hxlt : x.toNat < b.length := by
      by_contra hge
      rw [List.getD_eq_default _ _ (le_of_not_lt hge)] at h
      simp at h
    have hcollen : (b.getD x.toNat []).length = 6 := by
      rw [List.getD_eq_getElem b [] hxlt]
      exact hwf.2 _ (List.getElem_mem hxlt)
    have hylt : y.toNat < 6 := by
      by_contra hge
      rw [List.getD_eq_default] at h
      · simp at h
      · rw [hcollen]
        omega
    rw [hwf.1] at hxlt
    exact ⟨hx, by omega, hy, by omega⟩
  next => simp at h

theorem getD_set_self (l : List α) (i : Nat) (a d : α) (h : i < l.length) :
    (l.set i a).getD i d = a := by
  rw [List.getD_eq_getElem?_getD, List.getElem?_set, if_pos rfl, if_pos h]
  rfl

theorem getD_set_ne (l : List α) (i j : Nat) (a d : α) (h : i ≠ j) :
    (l.set i a).getD j d = l.getD j d := by
  rw [List.getD_eq_getElem?_getD, List.getElem?_set, if_neg h,
    ← List.getD_eq_getElem?_getD]

/-- The cells of the updated board: the placed position carries the mover's
color, every other position is unchanged. -/
theorem cellAt_newB (s : GameState) (c : Int) (r : Nat)
    (hc0 : 0 ≤ c) (hcb : c.toNat < s.board.length)
    (hr : r < (s.board.getD c.toNat []).length) (x y : Int) :
    cellAt (newB s c r) x y =
      if x = c ∧ y = (r : Int) then some s.currentPlayer else cellAt s.board x y := by
  by_cases hsign : 0 ≤ x ∧ 0 ≤ y
  · obtain ⟨hx, hy⟩ := hsign
    by_cases hxc : x.toNat = c.toNat
    · by_cases hyr : y.toNat = r
      · have hif : x = c ∧ y = (r : Int) := by omega
        rw [if_pos hif]
        unfold cellAt newB
        rw [if_pos ⟨hx, hy⟩, hxc, getD_set_self _ _ _ _ hcb, hyr,
          getD_set_self _ _ _ _ hr]
      · have hif : ¬(x = c ∧ y = (r : Int)) := by omega
        rw [if_neg hif]
        unfold cellAt newB
        rw [if_pos ⟨hx, hy⟩, if_pos ⟨hx, hy⟩, hxc, getD_set_self _ _ _ _ hcb,
          getD_set_ne _ _ _ _ _ fun hh => hyr hh.symm]
    · have hif : ¬(x = c ∧ y = (r : Int)) := by omega
      rw [if_neg hif]
      unfold cellAt newB
      rw [if_pos ⟨hx, hy⟩, if_pos ⟨hx, hy⟩,
        getD_set_ne _ _ _ _ _ fun hh => hxc hh.symm]
  · have hif : ¬(x = c ∧ y = (r : Int)) := by omega
    rw [if_neg hif, cellAt_neg _ _ _ hsign, cellAt_neg _ _ _ hsign]

/-- Lower bound for the directional walk: if the `n` cells after (c, r) in
direction (dc, dr) all carry `pc`, the walk counts at least `n`. -/
theorem countDir_ge (b : Board) (pc : Color) (dc dr : Int) :
    ∀ (k : Nat) (c r : Int) (n : Nat), n ≤ k →
      (∀ j : Nat, 1 ≤ j → j ≤ n → cellAt b (c + j * dc) (r + j * dr) = some pc) →
      n ≤ countDir b pc c r dc dr k := by
  intro k
  induction k with
  | zero =>
    intro c r n hn _
    omega
  | succ k ih =>
    intro c r n hn hcells
    cases n with
    | zero => omega
    | succ n =>
      have h1 : cellAt b (c + dc) (r + dr) = some pc := by
        have := hcells 1 le_rfl (by omega)
        simpa using this
      rw [countDir, if_pos h1]
      have h2 : n ≤ countDir b pc (c + dc) (r + dr) dc dr k := by
        apply ih (c + dc) (r + dr) n (by omega)
        intro j hj1 hjn
        have := hcells (j + 1) (by omega) (by omega)
        have harith : c + (j + 1 : Nat) * dc = c + dc + j * dc := by
          push_cast
          ring
        have harith2 : r + (j + 1 : Nat) * dr = r + dr + j * dr := by
          push_cast
          ring
        rw [harith, harith2] at this
        exact this
      omega

/-- Extraction from the directional walk: every position up to the counted
distance carries `pc`. -/
theorem countDir_cells (b : Board) (pc : Color) (dc dr : Int) :
    ∀ (k : Nat) (c r : Int) (j : Nat), 1 ≤ j → j ≤ countDir b pc c r dc dr k →
      cellAt b (c + j * dc) (r + j * dr) = some pc := by
  intro k
  induction k with
  | zero =>
    intro c r j hj1 hj2
    rw [countDir] at hj2
    omega
  | succ k ih =>
    intro c r j hj1 hj2
    rw [countDir] at hj2
    split at hj2
    next hcell =>
      cases j with
      | zero => omega
      | succ j =>
        cases j with
        | zero => simpa using hcell
        | succ j =>
          have := ih (c + dc) (r + dr) (j + 1) (by omega) (by omega)
          have harith : c + dc + (j + 1 : Nat) * dc = c + (j + 2 : Nat) * dc := by
            push_cast
            ring
          have harith2 : r + dr + (j + 1 : Nat) * dr = r + (j + 2 : Nat) * dr := by
            push_cast
            ring
          rw [harith, harith2] at this
          exact this
    next => omega

theorem fourFrom_iff (b : Board) (pc : Color) (c r dc dr : Int) :
    fourFrom b pc c r dc dr = true ↔
      ∀ i : Nat, i < 4 → cellAt b (c + i * dc) (r + i * dr) = some pc := by
  unfold fourFrom
  rw [List.all_eq_true]
  constructor
  · intro h i hi
    have := h i (List.mem_range.mpr hi)
    simpa using this
  · intro h i hi
    simpa using h i (List.mem_range.mp hi)

theorem hasFourRun_intro (b : Board) (hwf : BoardWF b) (pc : Color)
    (c0 r0 dc dr : Int) (hd : (dc, dr) ∈ axes)
    (hcells : ∀ i : Nat, i < 4 → cellAt b (c0 + i * dc) (r0 + i * dr) = some pc) :
    hasFourRun b pc = true := by
  have h0 := hcells 0 (by omega)
  norm_num at h0
  obtain ⟨hx, hx7, hy, hy6⟩ := cellAt_some_bounds b hwf c0 r0 pc h0
  unfold hasFourRun
  rw [List.any_eq_true]
  refine ⟨c0.toNat, List.mem_range.mpr (by omega), ?_⟩
  rw [List.any_eq_true]
  refine ⟨r0.toNat, List.mem_range.mpr (by omega), ?_⟩
  rw [List.any_eq_true]
  refine ⟨(dc, dr), hd, ?_⟩
  show fourFrom b pc c0.toNat r0.toNat dc dr = true
  have hc0 : (c0.toNat : Int) = c0 := by omega
  have hr0 : (r0.toNat : Int) = r0 := by omega
  rw [hc0, hr0, fourFrom_iff]
  exact hcells

theorem hasFourRun_elim (b : Board) (pc : Color) (h : hasFourRun b pc = true) :
    ∃ (c0 r0 dc dr : Int), (dc, dr) ∈ axes ∧
      ∀ i : Nat, i < 4 → cellAt b (c0 + i * dc) (r0 + i * dr) = some pc := by
  unfold hasFourRun at h
  rw [List.any_eq_true] at h
  obtain ⟨c, -, h⟩ := h
  rw [List.any_eq_true] at h
  obtain ⟨r, -, h⟩ := h
  rw [List.any_eq_true] at h
  obtain ⟨d, hd, h⟩ := h
  refine ⟨c, r, d.1, d.2, by simpa using hd, ?_⟩
  have h' : fourFrom b pc c r d.1 d.2 = true := h
  exact (fourFrom_iff b pc c r d.1 d.2).mp h'

theorem checkWinAt_intro (b : Board) (pc : Color) (c r dc dr : Int)
    (hd : (dc, dr) ∈ axes) (j : Nat) (hj : j ≤ 3)
    (hcells : ∀ i : Nat, i < 4 →
      cellAt b (c + ((i : Int) - j) * dc) (r + ((i : Int) - j) * dr) = some pc) :
    checkWinAt b c r pc = true := by
  have hfwd : (3 - j : Nat) ≤ countDir b pc c r dc dr 6 := by
    apply countDir_ge b pc dc dr 6 c r (3 - j) (by omega)
    intro t ht1 ht2
    have hc := hcells (j + t) (by omega)
    have harith : c + (((j + t : Nat) : Int) - j) * dc = c + (t : Int) * dc := by
      push_cast
      ring
    have harith2 : r + (((j + t : Nat) : Int) - j) * dr = r + (t : Int) * dr := by
      push_cast
      ring
    rw [harith, harith2] at hc
    exact hc
  have hbwd : j ≤ countDir b pc c r (-dc) (-dr) 6 := by
    apply countDir_ge b pc (-dc) (-dr) 6 c r j (by omega)
    intro t ht1 ht2
    have hc := hcells (j - t) (by omega)
    have hts : (((j - t : Nat)) : Int) = (j : Int) - t := by omega
    have harith : c + (((j - t : Nat) : Int) - j) * dc = c + (t : Int) * (-dc) := by
      rw [hts]
      ring
    have harith2 : r + (((j - t : Nat) : Int) - j) * dr = r + (t : Int) * (-dr) := by
      rw [hts]
      ring
    rw [harith, harith2] at hc
    exact hc
  unfold checkWinAt
  rw [List.any_eq_true]
  refine ⟨(dc, dr), hd, ?_⟩
  show decide (4 ≤ 1 + countDir b pc c r dc dr 6 + countDir b pc c r (-dc) (-dr) 6) = true
  rw [decide_eq_true_eq]
  omega

theorem checkWinAt_elim (b : Board) (pc : Color) (c r : Int)
    (hcenter : cellAt b c r = some pc) (h : checkWinAt b c r pc = true) :
    ∃ (c0 r0 dc dr : Int), (dc, dr) ∈ axes ∧
      ∀ i : Nat, i < 4 → cellAt b (c0 + i * dc) (r0 + i * dr) = some pc := by
  unfold checkWinAt at h
  rw [List.any_eq_true] at h
  obtain ⟨d, hd, hcount⟩ := h
  have hcount' : 4 ≤ 1 + countDir b pc c r d.1 d.2 6 + countDir b pc c r (-d.1) (-d.2) 6 := by
    have h' : decide (4 ≤ 1 + countDir b pc c r d.1 d.2 6 +
        countDir b pc c r (-d.1) (-d.2) 6) = true := hcount
    rwa [decide_eq_true_eq] at h'
  have hcell : ∀ t : Int, -(countDir b pc c r (-d.1) (-d.2) 6 : Int) ≤ t →
      t ≤ (countDir b pc c r d.1 d.2 6 : Int) →
      cellAt b (c + t * d.1) (r + t * d.2) = some pc := by
    intro t ht1 ht2
    rcases lt_trichotomy t 0 with hlt | heq | hgt
    · have hs := countDir_cells b pc (-d.1) (-d.2) 6 c r (-t).toNat (by omega) (by omega)
      have htn : (((-t).toNat : Nat) : Int) = -t := by omega
      have harith : c + (((-t).toNat : Nat) : Int) * (-d.1) = c + t * d.1 := by
        rw [htn]
        ring
      have harith2 : r + (((-t).toNat : Nat) : Int) * (-d.2) = r + t * d.2 := by
        rw [htn]
        ring
      rw [harith, harith2] at hs
      exact hs
    · rw [heq]
      simpa using hcenter
    · have hs := countDir_cells b pc d.1 d.2 6 c r t.toNat (by omega) (by omega)
      have htn : ((t.toNat : Nat) : Int) = t := by omega
      rw [htn] at hs
      exact hs
  refine ⟨c + ((countDir b pc c r d.1 d.2 6 : Int) - 3) * d.1,
    r + ((countDir b pc c r d.1 d.2 6 : Int) - 3) * d.2, d.1, d.2, by simpa using hd, ?_⟩
  intro i hi
  have harith : c + ((countDir b pc c r d.1 d.2 6 : Int) - 3) * d.1 + i * d.1 =
      c + ((countDir b pc c r d.1 d.2 6 : Int) - 3 + i) * d.1 := by ring
  have harith2 : r + ((countDir b pc c r d.1 d.2 6 : Int) - 3) * d.2 + i * d.2 =
      r + ((countDir b pc c r d.1 d.2 6 : Int) - 3 + i) * d.2 := by ring
  rw [harith, harith2]
  apply hcell
  · omega
  · omega

theorem newB_WF (s : GameState) (c : Int) (r : Nat) (hwf : BoardWF s.board)
    (hcb : c.toNat < s.board.length) : BoardWF (newB s c r) := by
  constructor
  · rw [newB, List.length_set]
    exact hwf.1
  · intro col hcol
    rcases List.mem_or_eq_of_mem_set hcol with hmem | rfl
    · exact hwf.2 col hmem
    · rw [List.length_set, List.getD_eq_getElem s.board [] hcb]
      exact hwf.2 _ (List.getElem_mem hcb)

/-- One move's effect on runs: the successor reports a win for the mover
exactly when the new board carries a 4-run of the mover's color, and a
non-terminal successor carries no run of either color. -/
theorem applyMove_run_analysis (s : GameState) (m : Int) (s' : GameState)
    (hwf : BoardWF s.board)
    (hnored : hasFourRun s.board .red = false)
    (hnoyel : hasFourRun s.board .yellow = false)
    (h : applyMove s m = .ok s') :
    BoardWF s'.board ∧
    ((s'.isGameOver = true ∧ s'.winner = some s.currentPlayer) ↔
      hasFourRun s'.board s.currentPlayer = true) ∧
    (s'.isGameOver = false →
      hasFourRun s'.board .red = false ∧ hasFourRun s'.board .yellow = false) := by
  obtain ⟨hgo, hc, r, hidx, hcase⟩ := applyMove_ok_cases s m s' h
  have hwf' := applyMove_ok_WF s m s' h hwf
  have hcb : m.toNat < s.board.length := by
    rw [hwf.1]
    omega
  have hrlen : r < (s.board.getD m.toNat []).length :=
    (List.findIdx?_eq_some_iff_findIdx_eq.mp hidx).1
  have hupd := cellAt_newB s m r (by omega) hcb hrlen
  have hcenter : cellAt (newB s m r) m r = some s.currentPlayer := by
    rw [hupd m r, if_pos ⟨rfl, rfl⟩]
  have hwfNew : BoardWF (newB s m r) := newB_WF s m r hwf hcb
  have hnone : ∀ pc : Color, hasFourRun s.board pc = false := by
    intro pc
    cases pc
    · exact hnored
    · exact hnoyel
  have hkey : ∀ pc : Color, hasFourRun (newB s m r) pc = true →
      pc = s.currentPlayer ∧ checkWinAt (newB s m r) m (r : Int) s.currentPlayer = true := by
    intro pc hrun
    obtain ⟨c0, r0, dc, dr, hd, hcells⟩ := hasFourRun_elim _ pc hrun
    by_cases hthrough : ∃ j : Nat, j < 4 ∧ c0 + j * dc = m ∧ r0 + j * dr = (r : Int)
    · obtain ⟨j, hj4, hjc, hjr⟩ := hthrough
      have hcj := hcells j hj4
      rw [hjc, hjr] at hcj
      have hpc : pc = s.currentPlayer :=
        (Option.some.inj (hcenter.symm.trans hcj)).symm
      refine ⟨hpc, ?_⟩
      apply checkWinAt_intro _ _ _ _ dc dr hd j (by omega)
      intro i hi
      have hco : m + ((i : Int) - j) * dc = c0 + i * dc := by
        rw [← hjc]
        ring
      have hro : (r : Int) + ((i : Int) - j) * dr = r0 + i * dr := by
        rw [← hjr]
        ring
      rw [hco, hro]
      exact hpc ▸ hcells i hi
    · exfalso
      have hold : ∀ i : Nat, i < 4 →
          cellAt s.board (c0 + i * dc) (r0 + i * dr) = some pc := by
        intro i hi
        have hnc := hcells i hi
        rw [hupd] at hnc
        by_cases hcase2 : c0 + i * dc = m ∧ r0 + i * dr = (r : Int)
        · exact absurd ⟨i, hi, hcase2.1, hcase2.2⟩ hthrough
        · rwa [if_neg hcase2] at hnc
      have hcontra : hasFourRun s.board pc = true :=
        hasFourRun_intro s.board hwf pc c0 r0 dc dr hd hold
      rw [hnone pc] at hcontra
      exact absurd hcontra (by simp)
  have hfwd : checkWinAt (newB s m r) m (r : Int) s.currentPlayer = true →
      hasFourRun (newB s m r) s.currentPlayer = true := by
    intro hcw
    obtain ⟨c0, r0, dc, dr, hd, hcells⟩ := checkWinAt_elim _ _ _ _ hcenter hcw
    exact hasFourRun_intro _ hwfNew _ c0 r0 dc dr hd hcells
  rcases hcase with ⟨hwin, rfl⟩ | ⟨hwin, hfull, rfl⟩ | ⟨hwin, hfull, rfl⟩
  · refine ⟨hwf', ?_, ?_⟩
    · constructor
      · intro _
        exact hfwd hwin
      · intro _
        exact ⟨rfl, rfl⟩
    · intro hcontra
      simp at hcontra
  · refine ⟨hwf', ?_, ?_⟩
    · constructor
      · rintro ⟨-, hwn⟩
        simp at hwn
      · intro hrun
        obtain ⟨-, hcw⟩ := hkey s.currentPlayer hrun
        rw [hwin] at hcw
        exact absurd hcw (by simp)
    · intro hgof
      simp at hgof
  · refine ⟨hwf', ?_, ?_⟩
    · constructor
      · rintro ⟨hgo2, -⟩
        simp at hgo2
      · intro hrun
        obtain ⟨-, hcw⟩ := hkey s.currentPlayer hrun
        rw [hwin] at hcw
        exact absurd hcw (by simp)
    · intro _
      constructor
      · by_contra hcon
        rw [Bool.not_eq_false] at hcon
        obtain ⟨-, hcw⟩ := hkey .red hcon
        rw [hwin] at hcw
        exact absurd hcw (by simp)
      · by_contra hcon
        rw [Bool.not_eq_false] at hcon
        obtain ⟨-, hcw⟩ := hkey .yellow hcon
        rw [hwin] at hcw
        exact absurd hcw (by simp)

/-- The reachability invariant of claim C1: well-formed board, and no
4-run of either color while the game is not over. -/
def Inv (s : GameState) : Prop :=
  BoardWF s.board ∧ (s.isGameOver = false →
    hasFourRun s.board .red = false ∧ hasFourRun s.board .yellow = false)

theorem foldlM_applyMove_inv : ∀ (ms : List Int) (s0 s : GameState), Inv s0 →
    ms.foldlM applyMove s0 = .ok s → Inv s := by
  intro ms
  induction ms with
  | nil =>
    intro s0 s h0 h
    have h' : (Except.ok s0 : Except MoveError GameState) = .ok s := h
    exact (Except.ok.inj h') ▸ h0
  | cons c cs ih =>
    intro s0 s h0 h
    rw [List.foldlM_cons] at h
    cases happ : applyMove s0 c with
    | error e =>
      rw [happ] at h
      have h' : (Except.error e : Except MoveError GameState) = .ok s := h
      cases h'
    | ok s1 =>
      rw [happ] at h
      have h' : cs.foldlM applyMove s1 = .ok s := h
      apply ih s1 s _ h'
      have hgo : s0.isGameOver = false := (applyMove_ok_cases s0 c s1 happ).1
      obtain ⟨hr, hy⟩ := h0.2 hgo
      have hana := applyMove_run_analysis s0 c s1 h0.1 hr hy happ
      exact ⟨hana.1, hana.2.2⟩

theorem playMoves_inv (ms : List Int) (s : GameState) (h : playMoves ms = .ok s) :
    Inv s :=
  foldlM_applyMove_inv ms createInitialState s ⟨by decide, fun _ => by decide⟩ h

/-- Claim C1: along every legal move sequence from the initial state, a
state produced by a move reports a win for the mover exactly when that
move completes four contiguous same-color cells on some axis (the board
carried no such run before the move, and no earlier state of the sequence
is terminal); and the concrete sequence of moves 0, 0, 1, 1, 2, 2, 3 ends
with `isGameOver = true` and the first player (red) as winner. -/
theorem win_reported_on_completing_move :
    (∀ (ms : List Int) (m : Int) (s s' : GameState),
      playMoves ms = .ok s → applyMove s m = .ok s' →
      s.isGameOver = false ∧
      hasFourRun s.board s.currentPlayer = false ∧
      ((s'.isGameOver = true ∧ s'.winner = some s.currentPlayer) ↔
        hasFourRun s'.board s.currentPlayer = true)) ∧
    (playMoves [0, 0, 1, 1, 2, 2, 3]).toOption.map (fun t => (t.isGameOver, t.winner)) =
      some (true, some createInitialState.currentPlayer) := by
  constructor
  · intro ms m s s' hplay happ
    have hinv := playMoves_inv ms s hplay
    have hgo : s.isGameOver = false := (applyMove_ok_cases s m s' happ).1
    obtain ⟨hr, hy⟩ := hinv.2 hgo
    have hana := applyMove_run_analysis s m s' hinv.1 hr hy happ
    refine ⟨hgo, ?_, hana.2.1⟩
    cases s.currentPlayer
    · exact hr
    · exact hy
  · decide

/-- A successor of the initial state used by the claim C1 witness. -/
def firstStepState : GameState :=
  (applyMove createInitialState 0).toOption.getD createInitialState

theorem win_reported_on_completing_move_witness :
    createInitialState.isGameOver = false ∧
    hasFourRun createInitialState.board createInitialState.currentPlayer = false ∧
    (playMoves [0, 0, 1, 1, 2, 2, 3]).toOption.map (fun t => (t.isGameOver, t.winner)) =
      some (true, some createInitialState.currentPlayer) := by
  have h := win_reported_on_completing_move
  have h1 := h.1 [] 0 createInitialState firstStepState rfl rfl
  exact ⟨h1.1, h1.2.1, h.2⟩

end ConnectFour
